import Mathlib

/-!
Verification of the `apint` arbitrary-precision fixed-width integer library.

The Rust sources are shallowly embedded: machine words (`Digit`, 64 bits)
become `Nat` with explicit `% 2 ^ 64`, the `ApInt` value becomes a bit width
together with a little-endian list of digits, and fallible operations return
an explicit outcome type.  Panics (`unimplemented!`, failed `unwrap`s) are
modelled by a dedicated `panic` outcome.
-/

namespace Apint

/-! ### Digit model

`Digit` is a 64-bit machine word (`digit::BITS = 64`, `DigitRepr = u64`).
`digit.rs` itself is not part of the provided sources; its primitives are
modelled from the spec (§4.1).  A digit is a `Nat`; every operation that can
overflow reduces `% 2 ^ 64`. -/

def digitBits : Nat := 64

def digitBase : Nat := 2 ^ 64

/-! ### Error taxonomy (spec §7, `errors.rs` is not in the sources).
String payloads and annotations are dropped; the discriminating data
(radix, widths, positions, dividend) is kept. -/

inductive DivOp where
  | UnsignedDiv
  | SignedDiv
  | UnsignedRem
  | SignedRem
deriving DecidableEq, Repr

structure ApInt where
  width : Nat
  digits : List Nat
deriving DecidableEq, Repr

inductive Error where
  | invalidRadix (radix : Nat)
  | unmatchingBitwidths (lhs rhs : Nat)
  | divisionByZero (op : DivOp) (dividend : ApInt)
  | invalidShiftAmount (amount width : Nat)
  | invalidStringRepr
  | invalidCharInStringRepr (pos byte : Nat)
deriving DecidableEq, Repr

/-- Outcome of an in-place (`*_assign`) operation on `&mut self`: on success
the mutated value, on a checked error the (unchanged) receiver together with
the error, and `panic` for `unimplemented!()` paths. -/
inductive MutOut where
  | ok (newSelf : ApInt)
  | error (self : ApInt) (e : Error)
  | panic
deriving DecidableEq, Repr

/-- Outcome of a consuming (`into_*`) operation returning `Result<ApInt>`. -/
inductive Res where
  | ok (val : ApInt)
  | error (e : Error)
  | panic
deriving DecidableEq, Repr

/-- `try_forward_bin_mut_impl`: the `into_*` forms apply the assign form to a
moved `self` and forward its result. -/
def toRes : MutOut → Res
  | .ok c => .ok c
  | .error _ e => .error e
  | .panic => .panic

deriving instance DecidableEq for Except

/-! ### Radix (src/src/radix.rs) -/

def Radix.MIN : Nat := 2

def Radix.MAX : Nat := 36

/-- `Radix::new` from src/src/radix.rs: the guard is
`!(Radix::MIN <= radix && radix >= Radix::MAX)`, verbatim from the source
(note the `>=` where the doc comment describes the range `2..36`). -/
def radixNew (radix : Nat) : Except Error Nat :=
  if ¬ (Radix.MIN ≤ radix ∧ radix ≥ Radix.MAX) then
    .error (.invalidRadix radix)
  else
    .ok radix

/-- `Radix::is_valid_byte` from src/src/radix.rs: the byte is a digit value
already normalized from ASCII, valid iff it is below the radix. -/
def isValidByte (radix byte : Nat) : Bool := byte < radix

/-! ### Bit width and storage (bitwidth.rs / storage.rs are not in the
sources; modelled from the spec §3). -/

/-- Modelled from the spec: `BitWidth::required_blocks` is `ceil(N / B)`. -/
def requiredDigits (w : Nat) : Nat := (w + 63) / 64

/-- Modelled from the spec: storage is `Inline` iff the width fits one digit. -/
def isInline (w : Nat) : Bool := w ≤ 64

/-- Modelled from the spec: `excess_bits(N) = N mod B`. -/
def excessBits (w : Nat) : Nat := w % 64

/-! ### Value of a digit sequence -/

/-- Value of a little-endian digit list in base `b`. -/
def ofDigitsLE (b : Nat) : List Nat → Nat
  | [] => 0
  | d :: ds => d + b * ofDigitsLE b ds

/-- Numeric value of an `ApInt` (digit 0 is least significant). -/
def ApInt.toNat (a : ApInt) : Nat := ofDigitsLE digitBase a.digits

/-- Well-formedness: positive width, exactly `required_digits` digits, every
digit a 64-bit word, and the unused high bits of the top digit zero (stated
as: the value fits in `width` bits). -/
def ApInt.wf (a : ApInt) : Prop :=
  0 < a.width ∧ a.digits.length = requiredDigits a.width ∧
    (∀ d ∈ a.digits, d < digitBase) ∧ a.toNat < 2 ^ a.width

instance (a : ApInt) : Decidable a.wf := by
  unfold ApInt.wf; infer_instance

/-- Spec §3 invariant 3, digit-level form: if `excess_bits ≠ 0`, the most
significant digit has its bits at positions `≥ excess_bits` zero. -/
def unusedBitsInvariant (a : ApInt) : Prop :=
  excessBits a.width = 0 ∨ a.digits.getLastD 0 < 2 ^ excessBits a.width

instance (a : ApInt) : Decidable (unusedBitsInvariant a) := by
  unfold unusedBitsInvariant; infer_instance

/-- Modelled from the spec: `ApInt::is_zero` — the represented value is zero,
i.e. every digit is zero. -/
def ApInt.isZero (a : ApInt) : Bool := a.digits.all (· == 0)

/-- Replace the last element of a list (the most significant digit). -/
def modifyLast (f : Nat → Nat) : List Nat → List Nat
  | [] => []
  | [d] => [f d]
  | d :: d2 :: rest => d :: modifyLast f (d2 :: rest)

/-- Modelled from the spec: `clear_unused_bits` applies
`retain_last_n(excess_bits)` (zero all bits at positions `≥ k`, i.e.
`% 2 ^ k`) to the top digit when `excess_bits ≠ 0`, and is a no-op
otherwise. -/
def clearUnusedBits (a : ApInt) : ApInt :=
  if excessBits a.width = 0 then a
  else ⟨a.width, modifyLast (fun d => d % 2 ^ excessBits a.width) a.digits⟩

/-! ### Digit-level carry chains (`ll::carry_add` / `ll::borrow_sub`,
modelled from the spec §4.1).  The external paths of `checked_add_assign` /
`checked_sub_assign` iterate the digit pairs least-significant first,
propagating the carry/borrow and discarding the final one; digits of `lhs`
beyond the zip (impossible for equal widths) stay untouched. -/

def carryAddChain : List Nat → List Nat → Nat → List Nat
  | l :: ls, r :: rs, c => (l + r + c) % digitBase :: carryAddChain ls rs ((l + r + c) / digitBase)
  | ls, _, _ => ls

def borrowSubChain : List Nat → List Nat → Nat → List Nat
  | l :: ls, r :: rs, br =>
      (digitBase + l - (r + br)) % digitBase ::
        borrowSubChain ls rs (if l < r + br then 1 else 0)
  | ls, _, _ => ls

/-! ### Arithmetic (src/src/apint/arithmetic.rs)

`zip_access_data_mut` (src/src/apint/utils.rs, `zip_model_mut`) first checks
that the widths match and fails with `UnmatchingBitWidths` otherwise, then
dispatches on the storage: `Inl` (one digit) for widths `≤ 64`, `Ext`
otherwise.  Inline digits are read with `headD 0` (a well-formed inline value
has exactly one digit). -/

/-- `ApInt::checked_add_assign`: inline `wrapping_add`, external carry chain,
then `clear_unused_bits`; a final carry is discarded. -/
def checkedAddAssign (lhs rhs : ApInt) : MutOut :=
  if lhs.width ≠ rhs.width then
    .error lhs (.unmatchingBitwidths lhs.width rhs.width)
  else if isInline lhs.width then
    .ok (clearUnusedBits ⟨lhs.width, [(lhs.digits.headD 0 + rhs.digits.headD 0) % digitBase]⟩)
  else
    .ok (clearUnusedBits ⟨lhs.width, carryAddChain lhs.digits rhs.digits 0⟩)

/-- `ApInt::checked_sub_assign`: inline `wrapping_sub`, external borrow chain,
then `clear_unused_bits`; a final borrow is discarded. -/
def checkedSubAssign (lhs rhs : ApInt) : MutOut :=
  if lhs.width ≠ rhs.width then
    .error lhs (.unmatchingBitwidths lhs.width rhs.width)
  else if isInline lhs.width then
    .ok (clearUnusedBits
      ⟨lhs.width, [(digitBase + lhs.digits.headD 0 - rhs.digits.headD 0) % digitBase]⟩)
  else
    .ok (clearUnusedBits ⟨lhs.width, borrowSubChain lhs.digits rhs.digits 0⟩)

/-- `ApInt::checked_mul_assign`: inline `wrapping_mul`, the external path is
`unimplemented!()`. -/
def checkedMulAssign (lhs rhs : ApInt) : MutOut :=
  if lhs.width ≠ rhs.width then
    .error lhs (.unmatchingBitwidths lhs.width rhs.width)
  else if isInline lhs.width then
    .ok (clearUnusedBits ⟨lhs.width, [(lhs.digits.headD 0 * rhs.digits.headD 0) % digitBase]⟩)
  else
    .panic

/-- `ApInt::checked_udiv_assign`: the zero-divisor check comes first (before
the width check inside `zip_access_data_mut`); inline `wrapping_div`, the
external path is `unimplemented!()`.  No `clear_unused_bits` call. -/
def checkedUdivAssign (lhs rhs : ApInt) : MutOut :=
  if rhs.isZero then .error lhs (.divisionByZero .UnsignedDiv lhs)
  else if lhs.width ≠ rhs.width then
    .error lhs (.unmatchingBitwidths lhs.width rhs.width)
  else if isInline lhs.width then
    .ok ⟨lhs.width, [lhs.digits.headD 0 / rhs.digits.headD 0]⟩
  else
    .panic

/-- `ApInt::checked_urem_assign`: like `checked_udiv_assign` with
`wrapping_rem`. -/
def checkedUremAssign (lhs rhs : ApInt) : MutOut :=
  if rhs.isZero then .error lhs (.divisionByZero .UnsignedRem lhs)
  else if lhs.width ≠ rhs.width then
    .error lhs (.unmatchingBitwidths lhs.width rhs.width)
  else if isInline lhs.width then
    .ok ⟨lhs.width, [lhs.digits.headD 0 % rhs.digits.headD 0]⟩
  else
    .panic

/-! Signed division: the inline path copies both digits, sign-extends them
from `width` to the full 64 bits, performs `i64` wrapping division/remainder
and stores the result, then clears unused bits. -/

/-- Signed (two's-complement) reading of a 64-bit pattern, i.e. `u64 as i64`. -/
def toInt64 (u : Nat) : Int := if u < 2 ^ 63 then (u : Int) else (u : Int) - 2 ^ 64

/-- Truncation of an integer to its 64-bit pattern, i.e. `i64 as u64`. -/
def u64OfInt (z : Int) : Nat := (z % ((2 : Int) ^ 64)).toNat

/-- Modelled from the spec: `Digit::sign_extend_from(width)` shifts left by
`B − width` and arithmetic-shifts right by the same amount (design note §9);
an `i64` arithmetic right shift by `s` is flooring division by `2 ^ s`. -/
def signExtendFrom (w d : Nat) : Nat :=
  u64OfInt (Int.fdiv (toInt64 ((d * 2 ^ (64 - w)) % digitBase)) (2 ^ (64 - w)))

/-- `i64::wrapping_div`: truncated division, except that `MIN / -1` wraps to
`MIN`. -/
def i64WrappingDiv (x y : Int) : Int :=
  if x = -(2 ^ 63) ∧ y = -1 then -(2 ^ 63) else Int.tdiv x y

/-- `i64::wrapping_rem`: truncated remainder, except that `MIN % -1` is `0`. -/
def i64WrappingRem (x y : Int) : Int :=
  if x = -(2 ^ 63) ∧ y = -1 then 0 else Int.tmod x y

/-- `ApInt::checked_sdiv_assign`. -/
def checkedSdivAssign (lhs rhs : ApInt) : MutOut :=
  if rhs.isZero then .error lhs (.divisionByZero .SignedDiv lhs)
  else if lhs.width ≠ rhs.width then
    .error lhs (.unmatchingBitwidths lhs.width rhs.width)
  else if isInline lhs.width then
    let l := signExtendFrom lhs.width (lhs.digits.headD 0)
    let r := signExtendFrom lhs.width (rhs.digits.headD 0)
    .ok (clearUnusedBits ⟨lhs.width, [u64OfInt (i64WrappingDiv (toInt64 l) (toInt64 r))]⟩)
  else
    .panic

/-- `ApInt::checked_srem_assign`. -/
def checkedSremAssign (lhs rhs : ApInt) : MutOut :=
  if rhs.isZero then .error lhs (.divisionByZero .SignedRem lhs)
  else if lhs.width ≠ rhs.width then
    .error lhs (.unmatchingBitwidths lhs.width rhs.width)
  else if isInline lhs.width then
    let l := signExtendFrom lhs.width (lhs.digits.headD 0)
    let r := signExtendFrom lhs.width (rhs.digits.headD 0)
    .ok (clearUnusedBits ⟨lhs.width, [u64OfInt (i64WrappingRem (toInt64 l) (toInt64 r))]⟩)
  else
    .panic

/-! Consuming (`into_*`) forms, via `try_forward_bin_mut_impl`. -/

def intoCheckedAdd (lhs rhs : ApInt) : Res := toRes (checkedAddAssign lhs rhs)

def intoCheckedSub (lhs rhs : ApInt) : Res := toRes (checkedSubAssign lhs rhs)

def intoCheckedMul (lhs rhs : ApInt) : Res := toRes (checkedMulAssign lhs rhs)

def intoCheckedUdiv (lhs rhs : ApInt) : Res := toRes (checkedUdivAssign lhs rhs)

def intoCheckedSdiv (lhs rhs : ApInt) : Res := toRes (checkedSdivAssign lhs rhs)

def intoCheckedUrem (lhs rhs : ApInt) : Res := toRes (checkedUremAssign lhs rhs)

def intoCheckedSrem (lhs rhs : ApInt) : Res := toRes (checkedSremAssign lhs rhs)

/-! ### Negation (`ApInt::negate`) -/

/-- Modelled from the spec: `ApInt::bitnot` inverts all digits (`not_inplace`
is the 64-bit complement) and then clears unused bits. -/
def ApInt.bitnot (a : ApInt) : ApInt :=
  clearUnusedBits ⟨a.width, a.digits.map (fun d => digitBase - 1 - d)⟩

/-- Modelled from the spec: `ApInt::one(w)` — the constant one at width `w`. -/
def ApInt.one (w : Nat) : ApInt :=
  ⟨w, 1 :: List.replicate (requiredDigits w - 1) 0⟩

/-- `ApInt::negate`: `bitnot`, then `checked_add_assign(one(width))` (whose
failure the source `expect`s away: the widths always match), then
`clear_unused_bits`. -/
def ApInt.negate (a : ApInt) : ApInt :=
  match checkedAddAssign a.bitnot (ApInt.one a.width) with
  | .ok c => clearUnusedBits c
  | _ => clearUnusedBits a.bitnot

/-- `ApInt::into_negate` via `forward_mut_impl`. -/
def intoNegate (a : ApInt) : ApInt := a.negate

/-! ### Shifts (src/src/apint/shift.rs)

`checks::verify_shift_amount` (checks.rs is not in the sources) is modelled
from the spec: a shift amount `≥ width` is rejected with
`InvalidShiftAmount`. -/

/-- Second pass of the external left shift: shift each digit left by
`bit_steps` and or-in the carried-out top bits of the previous digit. -/
def shlCarryLoop (bs : Nat) : List Nat → Nat → List Nat
  | [], _ => []
  | d :: rest, carry =>
      (((d * 2 ^ bs) % digitBase) ||| carry) :: shlCarryLoop bs rest (d / 2 ^ (64 - bs))

/-- `ApInt::checked_shl_assign`.  Note: unlike the arithmetic operations, the
source does not call `clear_unused_bits` at the end. -/
def checkedShlAssign (a : ApInt) (s : Nat) : MutOut :=
  if ¬ s < a.width then .error a (.invalidShiftAmount s a.width)
  else if isInline a.width then
    .ok ⟨a.width, [(a.digits.headD 0 * 2 ^ s) % digitBase]⟩
  else
    let digitSteps := s / 64
    let bitSteps := s % 64
    let moved :=
      if digitSteps ≠ 0 then
        List.replicate digitSteps 0 ++
          (a.digits.rotateLeft (a.digits.length - digitSteps)).drop digitSteps
      else a.digits
    let final :=
      if bitSteps ≠ 0 then
        moved.take digitSteps ++ shlCarryLoop bitSteps (moved.drop digitSteps) 0
      else moved
    .ok ⟨a.width, final⟩

/-- `ApInt::into_checked_shl`. -/
def intoCheckedShl (a : ApInt) (s : Nat) : Res := toRes (checkedShlAssign a s)

/-- `ApInt::checked_ashr_assign`: the inline branch reinterprets the raw
64-bit digit as an `i64` and arithmetic-shifts that (flooring division by
`2 ^ s`); the external branch is `unimplemented!()`. -/
def checkedAshrAssign (a : ApInt) (s : Nat) : MutOut :=
  if ¬ s < a.width then .error a (.invalidShiftAmount s a.width)
  else if isInline a.width then
    .ok ⟨a.width, [u64OfInt (Int.fdiv (toInt64 (a.digits.headD 0)) (2 ^ s))]⟩
  else
    .panic

/-- `ApInt::into_checked_ashr`. -/
def intoCheckedAshr (a : ApInt) (s : Nat) : Res := toRes (checkedAshrAssign a s)

/-! ### SmallAPInt (src/src/small_apint.rs) -/

structure SmallAPInt where
  len : Nat
  digit : Nat
deriving DecidableEq, Repr

/-- `APIntImpl::slt` from src/src/small_apint.rs: after the common-width
check (`checks::verify_common_bitwidth`, modelled from the spec as failing
with `UnmatchingBitWidths`), both raw digits are shifted left by
`BITS − width` and compared as `i64`. -/
def SmallAPInt.slt (a other : SmallAPInt) : Except Error Bool :=
  if a.len ≠ other.len then .error (.unmatchingBitwidths a.len other.len)
  else
    let infateAbs := 64 - a.len
    let left := toInt64 ((a.digit * 2 ^ infateAbs) % digitBase)
    let right := toInt64 ((other.digit * 2 ^ infateAbs) % digitBase)
    .ok (decide (left < right))

/-- Signed two's-complement interpretation of a `w`-bit pattern. -/
def sInt (w v : Nat) : Int :=
  if v < 2 ^ (w - 1) then (v : Int) else (v : Int) - 2 ^ w

/-! ### Constructors used by the claims (constructors.rs is not in the
sources; modelled from the spec §6). -/

/-- Modelled from the spec: `ApInt::signed_min_value(w)` — bit pattern
`100...0`, the single set bit at position `w − 1`. -/
def signedMinValue (w : Nat) : ApInt :=
  ⟨w, List.replicate (requiredDigits w - 1) 0 ++ [2 ^ (w - 1 - 64 * (requiredDigits w - 1))]⟩

/-- Modelled from the spec: `ApInt::from_i32(v)` — width 32, two's-complement
bit pattern of `v`. -/
def fromI32 (v : Int) : ApInt := ⟨32, [(v % ((2 : Int) ^ 32)).toNat]⟩

/-- Modelled from the spec: `ApInt::from_u8(v)` — width 8, value `v`. -/
def fromU8 (v : Nat) : ApInt := ⟨8, [v % 2 ^ 8]⟩

/-! ### Serialization (src/src/apint/serialization.rs)

Strings are embedded as lists of bytes (`Nat`).  Formatting of a single
digit with `{:b}` / `{:x}` is its base-`b` expansion most-significant-first
without leading zeros, and `{:064b}` / `{:016x}` the same zero-padded. -/

/-- Little-endian base-`b` expansion, fuel-bounded so that it reduces in the
kernel; fuel 64 covers every 64-bit digit for every base `≥ 2`. -/
def toDigitsLEAux (b : Nat) : Nat → Nat → List Nat
  | 0, _ => []
  | _ + 1, 0 => []
  | fuel + 1, n + 1 => (n + 1) % b :: toDigitsLEAux b fuel ((n + 1) / b)

def toDigitsLE (b n : Nat) : List Nat := toDigitsLEAux b 64 n

/-- `{:b}`-style formatting of one digit: most significant first, no leading
zeros (the empty list for zero, which the callers never print first). -/
def fmtDigitBE (b d : Nat) : List Nat := (toDigitsLE b d).reverse

/-- `{:064b}` / `{:016x}`-style formatting of one digit: zero-padded to
`pad` characters. -/
def fmtDigitPaddedBE (b pad d : Nat) : List Nat :=
  List.replicate (pad - (toDigitsLE b d).length) 0 ++ (toDigitsLE b d).reverse

/-- Shared skeleton of `impl fmt::Binary` / `fmt::LowerHex` / `fmt::UpperHex`
for `ApInt`: `"0"` for zero, otherwise skip the leading zero digits of the
big-endian digit sequence, print the first nonzero digit unpadded and the
remaining (lower) digits fully padded.  Produces digit values `0 ≤ d < b`. -/
def formatRadixPow2 (b pad : Nat) (a : ApInt) : List Nat :=
  if a.isZero then [0]
  else
    match a.digits.reverse.dropWhile (· == 0) with
    | [] => []
    | d :: rest => fmtDigitBE b d ++ (rest.map (fmtDigitPaddedBE b pad)).flatten

/-- Lower-case ASCII for a digit value (`0..9a..z`). -/
def digitToLowerAscii (d : Nat) : Nat := if d < 10 then 48 + d else 87 + d

/-- `impl fmt::Binary for ApInt`, as a byte string. -/
def formatBinary (a : ApInt) : List Nat :=
  (formatRadixPow2 2 64 a).map digitToLowerAscii

/-- `impl fmt::LowerHex for ApInt`, as a byte string. -/
def formatLowerHex (a : ApInt) : List Nat :=
  (formatRadixPow2 16 16 a).map digitToLowerAscii

/-- `impl fmt::Octal for ApInt`: zero formats as `"0"`, everything else is
`unimplemented!()` (modelled as `none`). -/
def formatOctal (a : ApInt) : Option (List Nat) :=
  if a.isZero then some [48] else none

/-- The byte-value translation inside the loop of `from_str_radix`:
`'0'..='9'` map to `0..9`, `'a'..='z'` and `'A'..='Z'` to `10..35`, anything
else becomes `u8::MAX`. -/
def byteToDigit (c : Nat) : Nat :=
  if 48 ≤ c ∧ c ≤ 57 then c - 48
  else if 97 ≤ c ∧ c ≤ 122 then c - 87
  else if 65 ≤ c ∧ c ≤ 90 then c - 55
  else 255

/-- The byte-normalization loop of `from_str_radix`: `'_'` is skipped, and a
digit value `≥ radix` fails with `InvalidCharInStringRepr`. -/
def translateBytes (radix : Nat) : Nat → List Nat → Except Error (List Nat)
  | _, [] => .ok []
  | i, c :: cs =>
    if c = 95 then translateBytes radix (i + 1) cs
    else if byteToDigit c < radix then
      match translateBytes radix (i + 1) cs with
      | .ok ds => .ok (byteToDigit c :: ds)
      | .error e => .error e
    else .error (.invalidCharInStringRepr i c)

/-- Modelled from the spec: `Radix::is_power_of_two` (`u8::is_power_of_two`
is "exactly one bit set"). -/
def isPowerOfTwo (r : Nat) : Bool := r ≠ 0 && r &&& (r - 1) == 0

/-- `find_last_bit_set` from src/src/radix.rs (`8 − leading_zeros`), i.e. the
bit length. -/
def findLastBitSet (v : Nat) : Nat := (toDigitsLE 2 v).length

/-- `Radix::bits_per_digit` from src/src/radix.rs:
`find_last_bit_set(radix) − 1`; only meaningful for power-of-two radices. -/
def bitsPerDigit (r : Nat) : Nat := findLastBitSet r - 1

/-- Modelled from the spec: `Radix::exact_bits_per_digit` — `Some(log₂ r)`
for a power-of-two radix, `None` otherwise. -/
def exactBitsPerDigit (r : Nat) : Option Nat :=
  if isPowerOfTwo r then some (bitsPerDigit r) else none

/-- Modelled from the spec: `Radix::get_radix_base` — `(r^p, p)` with `p` the
largest exponent such that `r^p` fits in one digit. -/
def getRadixBase (r : Nat) : Nat × Nat :=
  let p := (List.range 65).foldl (fun acc k => if r ^ k < digitBase then k else acc) 0
  (r ^ p, p)

/-- Fixed-size chunking (size `c`, last chunk possibly shorter), fuel-bounded
on the list length so that it reduces in the kernel. -/
def chunksFuel (c : Nat) : Nat → List Nat → List (List Nat)
  | 0, _ => []
  | _, [] => []
  | fuel + 1, x :: xs => (x :: xs).take c :: chunksFuel c fuel ((x :: xs).drop c)

def chunksOf (c : Nat) (l : List Nat) : List (List Nat) := chunksFuel c l.length l

/-- Modelled from the spec: `ApInt::from_iter` over a little-endian digit
sequence gives width `B · len` (§4.7 "producing `required_digits` digits
directly"; the serialization tests pin the width to 64 per digit).  The
source `unwrap`s the error case, which no caller reaches (`data` is never
empty). -/
def apIntFromIter (data : List Nat) : ApInt := ⟨64 * data.length, data⟩

/-- `ApInt::from_bitwise_digits`: reversed radix digits are packed into each
64-bit digit by left-shift-and-or over `64 / bits`-element chunks. -/
def fromBitwiseDigits (v : List Nat) (bits : Nat) : ApInt :=
  let radixDigitsPerDigit := 64 / bits
  apIntFromIter ((chunksOf radixDigitsPerDigit v).map (fun chunk =>
    chunk.reverse.foldl (fun acc c => ((acc * 2 ^ bits) % digitBase) ||| c) 0))

/-- The accumulation loop of `from_inexact_bitwise_digits`: gather `bits`
bits per radix digit into `d`, emitting a digit whenever 64 bits are
available and keeping the spilled-over high bits. -/
def inexactLoop (bits : Nat) : List Nat → Nat → Nat → List Nat
  | [], d, dbits => if 0 < dbits then [d] else []
  | c :: rest, d, dbits =>
    let d2 := d ||| ((c * 2 ^ dbits) % digitBase)
    let dbits2 := dbits + bits
    if 64 ≤ dbits2 then
      d2 :: inexactLoop bits rest (c / 2 ^ (bits - (dbits2 - 64))) (dbits2 - 64)
    else
      inexactLoop bits rest d2 dbits2

/-- `ApInt::from_inexact_bitwise_digits`. -/
def fromInexactBitwiseDigits (v : List Nat) (bits : Nat) : ApInt :=
  apIntFromIter (inexactLoop bits v 0 0)

/-- `ApInt::from_radix_digits`: the non-power-of-two path.  Most of its body
is commented out in the source (TODO), so only the head chunk is accumulated
and each further chunk at most pushes a zero digit; the capacity estimate via
`LB_2_36_I3F13` has no semantic effect and is omitted. -/
def fromRadixDigits (v : List Nat) (radix : Nat) : ApInt :=
  let power := (getRadixBase radix).2
  let r := v.length % power
  let i := if r = 0 then power else r
  let first := (v.take i).foldl (fun acc d => (acc * radix + d) % digitBase) 0
  let data := (chunksOf power (v.drop i)).foldl
    (fun data _chunk => if data.getLast? ≠ some 0 then data ++ [0] else data) [first]
  apIntFromIter data

/-- `ApInt::from_str_radix` over byte strings: empty and leading/trailing
underscore checks, byte normalization, then dispatch on the radix. -/
def fromStrRadix (radix : Nat) (input : List Nat) : Except Error ApInt :=
  if input = [] then .error .invalidStringRepr
  else if input.headD 0 = 95 then .error .invalidStringRepr
  else if input.getLastD 0 = 95 then .error .invalidStringRepr
  else
    match translateBytes radix 0 input with
    | .error e => .error e
    | .ok v =>
      .ok (match exactBitsPerDigit radix with
        | some bits =>
          if 64 % bits = 0 then fromBitwiseDigits v.reverse bits
          else fromInexactBitwiseDigits v.reverse bits
        | none => fromRadixDigits v radix)

/-! ## Helper lemmas -/

theorem digitBase_pos : 0 < digitBase := by
  unfold digitBase
  positivity

theorem ofDigitsLE_nil (b : Nat) : ofDigitsLE b [] = 0 := rfl

theorem ofDigitsLE_cons (b d : Nat) (ds : List Nat) :
    ofDigitsLE b (d :: ds) = d + b * ofDigitsLE b ds := rfl

theorem ofDigitsLE_append (b : Nat) (l1 l2 : List Nat) :
    ofDigitsLE b (l1 ++ l2) = ofDigitsLE b l1 + b ^ l1.length * ofDigitsLE b l2 := by
  induction l1 with
  | nil => simp [ofDigitsLE]
  | cons d ds ih =>
    simp only [List.cons_append, ofDigitsLE_cons, ih, List.length_cons]
    ring

theorem ofDigitsLE_replicate_zero (b n : Nat) : ofDigitsLE b (List.replicate n 0) = 0 := by
  induction n with
  | zero => rfl
  | succ n ih => simp [List.replicate_succ, ofDigitsLE_cons, ih]

theorem ofDigitsLE_lt (b : Nat) :
    ∀ l : List Nat, (∀ d ∈ l, d < b) → ofDigitsLE b l < b ^ l.length := by
  intro l
  induction l with
  | nil => intro _; simp [ofDigitsLE]
  | cons d ds ih =>
    intro h
    have hd : d < b := h d (List.mem_cons_self d ds)
    have hx : ofDigitsLE b ds < b ^ ds.length := ih (fun e he => h e (List.mem_cons_of_mem d he))
    have h1 : b * (ofDigitsLE b ds + 1) ≤ b * b ^ ds.length := Nat.mul_le_mul_left b hx
    calc ofDigitsLE b (d :: ds) = d + b * ofDigitsLE b ds := rfl
    _ < b * (ofDigitsLE b ds + 1) := by rw [Nat.mul_add, Nat.mul_one]; omega
    _ ≤ b * b ^ ds.length := h1
    _ = b ^ (d :: ds).length := by rw [List.length_cons, pow_succ, Nat.mul_comm]

theorem ofDigitsLE_inj (b : Nat) (hb : 0 < b) :
    ∀ l1 l2 : List Nat, l1.length = l2.length → (∀ d ∈ l1, d < b) → (∀ d ∈ l2, d < b) →
      ofDigitsLE b l1 = ofDigitsLE b l2 → l1 = l2 := by
  intro l1
  induction l1 with
  | nil =>
    intro l2 hlen _ _ _
    exact (List.length_eq_zero.mp hlen.symm).symm
  | cons d ds ih =>
    intro l2 hlen h1 h2 hv
    match l2 with
    | [] => simp at hlen
    | e :: es =>
      have hd : d < b := h1 d (List.mem_cons_self d ds)
      have he : e < b := h2 e (List.mem_cons_self e es)
      simp only [ofDigitsLE_cons] at hv
      have hmod : d = e := by
        have h3 : (d + b * ofDigitsLE b ds) % b = (e + b * ofDigitsLE b es) % b := by rw [hv]
        rwa [Nat.add_mul_mod_self_left, Nat.add_mul_mod_self_left,
          Nat.mod_eq_of_lt hd, Nat.mod_eq_of_lt he] at h3
      subst hmod
      have htail : ofDigitsLE b ds = ofDigitsLE b es :=
        Nat.eq_of_mul_eq_mul_left hb (by omega)
      have := ih es (by simpa using hlen)
        (fun x hx => h1 x (List.mem_cons_of_mem d hx))
        (fun x hx => h2 x (List.mem_cons_of_mem d hx)) htail
      rw [this]

theorem dropLast_append_getLastD :
    ∀ l : List Nat, l ≠ [] → l.dropLast ++ [l.getLastD 0] = l := by
  intro l
  induction l with
  | nil => intro h; exact absurd rfl h
  | cons d ds ih =>
    intro _
    match ds, ih with
    | [], _ => rfl
    | e :: es, ih =>
      have h2 := ih (by simp)
      simp only [List.dropLast_cons₂, List.cons_append]
      rw [show (d :: e :: es).getLastD 0 = (e :: es).getLastD 0 by
        simp [List.getLastD_eq_getLast?]]
      rw [h2]

theorem modifyLast_eq (f : Nat → Nat) :
    ∀ l : List Nat, l ≠ [] → modifyLast f l = l.dropLast ++ [f (l.getLastD 0)] := by
  intro l
  induction l with
  | nil => intro h; exact absurd rfl h
  | cons d ds ih =>
    intro _
    match ds, ih with
    | [], _ => rfl
    | e :: es, ih =>
      have h2 := ih (by simp)
      show d :: modifyLast f (e :: es) = _
      rw [h2]
      simp only [List.dropLast_cons₂, List.cons_append]
      rw [show (d :: e :: es).getLastD 0 = (e :: es).getLastD 0 by
        simp [List.getLastD_eq_getLast?]]

theorem length_one_eq (l : List Nat) (h : l.length = 1) : l = [l.headD 0] := by
  match l, h with
  | [d], _ => rfl

theorem isZero_iff (a : ApInt) : a.isZero = true ↔ a.toNat = 0 := by
  unfold ApInt.isZero ApInt.toNat
  induction a.digits with
  | nil => simp [ofDigitsLE]
  | cons d ds ih =>
    simp only [List.all_cons, Bool.and_eq_true, beq_iff_eq, ofDigitsLE_cons] at *
    constructor
    · rintro ⟨h1, h2⟩
      simp [h1, ih.mp h2]
    · intro h
      have hd : d = 0 := by omega
      have hds : digitBase * ofDigitsLE digitBase ds = 0 := by omega
      have := digitBase_pos
      have h2 : ofDigitsLE digitBase ds = 0 := by
        rcases Nat.mul_eq_zero.mp hds with h | h
        · omega
        · exact h
      exact ⟨hd, ih.mpr h2⟩

/-! Facts about `requiredDigits` and `clearUnusedBits`. -/

theorem requiredDigits_pos (w : Nat) (h : 0 < w) : 0 < requiredDigits w := by
  unfold requiredDigits
  omega

theorem requiredDigits_inline (w : Nat) (h0 : 0 < w) (h64 : w ≤ 64) :
    requiredDigits w = 1 := by
  unfold requiredDigits
  omega

/-- Decomposition used everywhere for the top digit: for a list of the right
length, the value splits as `low + B^(n-1) * top`. -/
theorem toNat_split_last (ds : List Nat) (h : ds ≠ []) :
    ofDigitsLE digitBase ds =
      ofDigitsLE digitBase ds.dropLast + digitBase ^ ds.dropLast.length * ds.getLastD 0 := by
  conv_lhs => rw [← dropLast_append_getLastD ds h]
  rw [ofDigitsLE_append]
  simp [ofDigitsLE_cons, ofDigitsLE_nil]

theorem clearUnusedBits_width (a : ApInt) : (clearUnusedBits a).width = a.width := by
  unfold clearUnusedBits
  split <;> rfl

theorem modifyLast_length (f : Nat → Nat) : ∀ l : List Nat, (modifyLast f l).length = l.length := by
  intro l
  induction l with
  | nil => rfl
  | cons d ds ih =>
    match ds, ih with
    | [], _ => rfl
    | e :: es, ih => simpa [modifyLast] using ih

theorem clearUnusedBits_length (a : ApInt) :
    (clearUnusedBits a).digits.length = a.digits.length := by
  unfold clearUnusedBits
  split
  · rfl
  · simp [modifyLast_length]

theorem getLastD_mem (l : List Nat) (hne : l ≠ []) : l.getLastD 0 ∈ l := by
  rw [List.getLastD_eq_getLast?, List.getLast?_eq_getLast l hne]
  simp only [Option.getD_some]
  exact List.getLast_mem hne

theorem modifyLast_bound (f : Nat → Nat) (b : Nat) (hf : ∀ y, f y < b ∨ f y ≤ y)
    (l : List Nat) (hl : ∀ d ∈ l, d < b) : ∀ d ∈ modifyLast f l, d < b := by
  intro d hd
  by_cases hne : l = []
  · subst hne; simp [modifyLast] at hd
  · rw [modifyLast_eq f l hne] at hd
    rcases List.mem_append.mp hd with hd | hd
    · exact hl d (List.mem_of_mem_dropLast hd)
    · have hdl : d = f (l.getLastD 0) := by simpa using hd
      subst hdl
      rcases hf (l.getLastD 0) with h1 | h1
      · exact h1
      · exact Nat.lt_of_le_of_lt h1 (hl _ (getLastD_mem l hne))

/-- List-level value of the top-digit masking step: for a list of `q + 1`
digits, masking the last digit to `k` bits reduces the value modulo
`B^q * 2^k`. -/
theorem clear_list_value (k q : Nat) (ds : List Nat) (hlen : ds.length = q + 1)
    (hb : ∀ d ∈ ds, d < digitBase) :
    ofDigitsLE digitBase (modifyLast (fun d => d % 2 ^ k) ds) =
      ofDigitsLE digitBase ds % (digitBase ^ q * 2 ^ k) := by
  have hne : ds ≠ [] := by intro h; rw [h] at hlen; simp at hlen
  have hq : ds.dropLast.length = q := by rw [List.length_dropLast, hlen]; omega
  have hlow : ofDigitsLE digitBase ds.dropLast < digitBase ^ q := by
    rw [← hq]
    exact ofDigitsLE_lt digitBase _ (fun d hd => hb d (List.mem_of_mem_dropLast hd))
  have hsplit : ofDigitsLE digitBase ds =
      ofDigitsLE digitBase ds.dropLast + digitBase ^ q * ds.getLastD 0 := by
    rw [toNat_split_last ds hne, hq]
  have hclear : ofDigitsLE digitBase (modifyLast (fun d => d % 2 ^ k) ds) =
      ofDigitsLE digitBase ds.dropLast + digitBase ^ q * (ds.getLastD 0 % 2 ^ k) := by
    rw [modifyLast_eq _ _ hne, ofDigitsLE_append, hq]
    simp [ofDigitsLE_cons, ofDigitsLE_nil]
  rw [hclear, hsplit]
  have hmd : ds.getLastD 0 = 2 ^ k * (ds.getLastD 0 / 2 ^ k) + ds.getLastD 0 % 2 ^ k := by
    have := Nat.div_add_mod (ds.getLastD 0) (2 ^ k)
    omega
  have hrw : ofDigitsLE digitBase ds.dropLast + digitBase ^ q * ds.getLastD 0 =
      (ofDigitsLE digitBase ds.dropLast + digitBase ^ q * (ds.getLastD 0 % 2 ^ k)) +
        (digitBase ^ q * 2 ^ k) * (ds.getLastD 0 / 2 ^ k) := by
    conv_lhs => rw [hmd]
    ring
  rw [hrw, Nat.add_mul_mod_self_left]
  have hsmall : ofDigitsLE digitBase ds.dropLast + digitBase ^ q * (ds.getLastD 0 % 2 ^ k) <
      digitBase ^ q * 2 ^ k := by
    have h1 : ds.getLastD 0 % 2 ^ k < 2 ^ k := Nat.mod_lt _ (by positivity)
    have h2 : digitBase ^ q * (ds.getLastD 0 % 2 ^ k + 1) ≤ digitBase ^ q * 2 ^ k :=
      Nat.mul_le_mul_left _ h1
    rw [Nat.mul_add, Nat.mul_one] at h2
    omega
  exact (Nat.mod_eq_of_lt hsmall).symm

/-- The top digit of a list whose value is below `B^q * 2^k` is below
`2^k`. -/
theorem last_lt_of_value_lt (k q : Nat) (ds : List Nat) (hlen : ds.length = q + 1)
    (hv : ofDigitsLE digitBase ds < digitBase ^ q * 2 ^ k) :
    ds.getLastD 0 < 2 ^ k := by
  have hne : ds ≠ [] := by intro h; rw [h] at hlen; simp at hlen
  have hq : ds.dropLast.length = q := by rw [List.length_dropLast, hlen]; omega
  have hsplit : ofDigitsLE digitBase ds =
      ofDigitsLE digitBase ds.dropLast + digitBase ^ q * ds.getLastD 0 := by
    rw [toNat_split_last ds hne, hq]
  by_contra hge
  push_neg at hge
  have h1 : digitBase ^ q * 2 ^ k ≤ digitBase ^ q * ds.getLastD 0 :=
    Nat.mul_le_mul_left _ hge
  omega

/-- For widths with nonzero excess bits, the decomposition
`2 ^ width = B^(len-1) * 2 ^ excess`. -/
theorem width_pow_split (w : Nat) (h0 : 0 < w) (hk : w % 64 ≠ 0) :
    2 ^ w = digitBase ^ (requiredDigits w - 1) * 2 ^ (w % 64) := by
  unfold digitBase requiredDigits
  rw [← pow_mul, ← pow_add]
  congr 1
  omega

/-- For widths that are multiples of 64, `2 ^ width = B^len`. -/
theorem width_pow_full (w : Nat) (h0 : 0 < w) (hk : w % 64 = 0) :
    2 ^ w = digitBase ^ requiredDigits w := by
  unfold digitBase requiredDigits
  rw [← pow_mul]
  congr 1
  omega

/-- Value of `clear_unused_bits`: reduction of the whole value modulo
`2 ^ width`. -/
theorem clearUnusedBits_toNat (a : ApInt) (h0 : 0 < a.width)
    (hlen : a.digits.length = requiredDigits a.width)
    (hb : ∀ d ∈ a.digits, d < digitBase) :
    (clearUnusedBits a).toNat = a.toNat % 2 ^ a.width := by
  unfold clearUnusedBits excessBits
  by_cases hk : a.width % 64 = 0
  · rw [if_pos hk]
    have hlt : a.toNat < 2 ^ a.width := by
      have h1 := ofDigitsLE_lt digitBase a.digits hb
      rw [hlen] at h1
      rw [width_pow_full a.width h0 hk]
      exact h1
    exact (Nat.mod_eq_of_lt hlt).symm
  · rw [if_neg hk]
    have hlen2 : a.digits.length = (requiredDigits a.width - 1) + 1 := by
      have := requiredDigits_pos a.width h0
      omega
    show ofDigitsLE digitBase (modifyLast (fun d => d % 2 ^ (a.width % 64)) a.digits) = _
    rw [clear_list_value (a.width % 64) (requiredDigits a.width - 1) a.digits hlen2 hb]
    rw [ApInt.toNat, width_pow_split a.width h0 hk]

/-- On well-formed values `clear_unused_bits` is the identity (spec §8
invariant 1 follows). -/
theorem clearUnusedBits_of_wf (a : ApInt) (ha : a.wf) : clearUnusedBits a = a := by
  obtain ⟨h0, hlen, hb, hv⟩ := ha
  unfold clearUnusedBits excessBits
  by_cases hk : a.width % 64 = 0
  · rw [if_pos hk]
  · rw [if_neg hk]
    have hlen2 : a.digits.length = (requiredDigits a.width - 1) + 1 := by
      have := requiredDigits_pos a.width h0
      omega
    have hne : a.digits ≠ [] := by
      intro h
      rw [h] at hlen2
      simp at hlen2
    have hmlt : a.digits.getLastD 0 < 2 ^ (a.width % 64) := by
      apply last_lt_of_value_lt (a.width % 64) (requiredDigits a.width - 1) a.digits hlen2
      rw [← width_pow_split a.width h0 hk]
      exact hv
    have heq : modifyLast (fun d => d % 2 ^ (a.width % 64)) a.digits = a.digits := by
      rw [modifyLast_eq _ _ hne, Nat.mod_eq_of_lt hmlt]
      exact dropLast_append_getLastD a.digits hne
    rw [heq]

/-- Disjoint bitwise or is addition: or-ing a multiple of `2 ^ k` with a
value below `2 ^ k`. -/
theorem lor_of_lt (k q d : Nat) (hd : d < 2 ^ k) : (2 ^ k * q) ||| d = 2 ^ k * q + d := by
  induction k generalizing d with
  | zero =>
    interval_cases d
    simp
  | succ k ih =>
    have h1 : 2 ^ (k + 1) * q = Nat.bit false (2 ^ k * q) := by
      simp [Nat.bit_val]
      ring
    have h2 : d = Nat.bit (decide (d % 2 = 1)) (d / 2) :=
      (Nat.bit_decide_mod_two_eq_one_shiftRight_one d).symm
    rw [h1, h2, Nat.lor_bit]
    have h3 : d / 2 < 2 ^ k := by omega
    rw [ih _ h3]
    simp only [Bool.false_or, Nat.bit_val]
    rcases Nat.even_or_odd d with hp | hp
    · have : d % 2 = 0 := Nat.even_iff.mp hp
      simp [this]
      omega
    · have : d % 2 = 1 := Nat.odd_iff.mp hp
      simp [this]
      omega

/-! Lemmas about the carry-add chain. -/

theorem carryAddChain_length : ∀ (ls rs : List Nat) (c : Nat), ls.length = rs.length →
    (carryAddChain ls rs c).length = ls.length
  | [], [], _, _ => rfl
  | [], _ :: _, _, h => by simp at h
  | _ :: _, [], _, h => by simp at h
  | l :: ls, r :: rs, c, h => by
    show (carryAddChain (l :: ls) (r :: rs) c).length = _
    rw [show carryAddChain (l :: ls) (r :: rs) c =
      (l + r + c) % digitBase :: carryAddChain ls rs ((l + r + c) / digitBase) from rfl]
    simp only [List.length_cons]
    rw [carryAddChain_length ls rs _ (by simpa using h)]

theorem carryAddChain_bound : ∀ (ls rs : List Nat) (c : Nat), ls.length = rs.length →
    ∀ d ∈ carryAddChain ls rs c, d < digitBase
  | [], [], _, _ => by intro d hd; simp [carryAddChain] at hd
  | [], _ :: _, _, h => by simp at h
  | _ :: _, [], _, h => by simp at h
  | l :: ls, r :: rs, c, h => by
    intro d hd
    rw [show carryAddChain (l :: ls) (r :: rs) c =
      (l + r + c) % digitBase :: carryAddChain ls rs ((l + r + c) / digitBase) from rfl] at hd
    rcases List.mem_cons.mp hd with hd | hd
    · subst hd; exact Nat.mod_lt _ digitBase_pos
    · exact carryAddChain_bound ls rs _ (by simpa using h) d hd

/-- Splitting a modulus `B * B^n`: reduction of `x + B * y` with `x < B`. -/
theorem mod_base_pow_succ (x y n : Nat) (hx : x < digitBase) :
    (x + digitBase * y) % (digitBase * digitBase ^ n) =
      x + digitBase * (y % digitBase ^ n) := by
  have hy : y = digitBase ^ n * (y / digitBase ^ n) + y % digitBase ^ n := by
    have := Nat.div_add_mod y (digitBase ^ n)
    omega
  have hrw : x + digitBase * y =
      (x + digitBase * (y % digitBase ^ n)) + (digitBase * digitBase ^ n) * (y / digitBase ^ n) := by
    conv_lhs => rw [hy]
    ring
  rw [hrw, Nat.add_mul_mod_self_left]
  have h1 : y % digitBase ^ n < digitBase ^ n := Nat.mod_lt _ (pow_pos digitBase_pos n)
  have h2 : digitBase * (y % digitBase ^ n + 1) ≤ digitBase * digitBase ^ n :=
    Nat.mul_le_mul_left _ h1
  rw [Nat.mul_add, Nat.mul_one] at h2
  exact Nat.mod_eq_of_lt (by omega)

/-- The external add path computes the sum modulo `B^n`: the carry out of the
top digit is discarded. -/
theorem carryAddChain_value : ∀ (ls rs : List Nat) (c : Nat), ls.length = rs.length →
    ofDigitsLE digitBase (carryAddChain ls rs c) =
      (ofDigitsLE digitBase ls + ofDigitsLE digitBase rs + c) % digitBase ^ ls.length
  | [], [], c, _ => by simp [carryAddChain, ofDigitsLE, Nat.mod_one]
  | [], _ :: _, _, h => by simp at h
  | _ :: _, [], _, h => by simp at h
  | l :: ls, r :: rs, c, h => by
    rw [show carryAddChain (l :: ls) (r :: rs) c =
      (l + r + c) % digitBase :: carryAddChain ls rs ((l + r + c) / digitBase) from rfl]
    rw [ofDigitsLE_cons, carryAddChain_value ls rs _ (by simpa using h)]
    rw [List.length_cons, pow_succ, Nat.mul_comm (digitBase ^ ls.length) digitBase]
    rw [← mod_base_pow_succ _ _ _ (Nat.mod_lt _ digitBase_pos)]
    congr 1
    rw [ofDigitsLE_cons, ofDigitsLE_cons]
    have := Nat.div_add_mod (l + r + c) digitBase
    ring_nf
    omega

/-! ### Signed interpretation machinery (for `slt` and signed div/rem) -/

theorem toInt64_inflate (w x : Nat) (h0 : 0 < w) (h64 : w ≤ 64) (hx : x < 2 ^ w) :
    toInt64 ((x * 2 ^ (64 - w)) % digitBase) = sInt w x * 2 ^ (64 - w) := by
  have hprod : x * 2 ^ (64 - w) < 2 ^ 64 := by
    calc x * 2 ^ (64 - w) < 2 ^ w * 2 ^ (64 - w) :=
        (Nat.mul_lt_mul_right (pow_pos (by norm_num) _)).mpr hx
    _ = 2 ^ 64 := by rw [← pow_add]; congr 1; omega
  rw [show digitBase = 2 ^ 64 from rfl, Nat.mod_eq_of_lt hprod]
  unfold toInt64 sInt
  by_cases hs : x < 2 ^ (w - 1)
  · rw [if_pos hs]
    have hlt : x * 2 ^ (64 - w) < 2 ^ 63 := by
      calc x * 2 ^ (64 - w) < 2 ^ (w - 1) * 2 ^ (64 - w) :=
          (Nat.mul_lt_mul_right (pow_pos (by norm_num) _)).mpr hs
      _ = 2 ^ 63 := by rw [← pow_add]; congr 1; omega
    rw [if_pos hlt]
    push_cast
    ring
  · rw [if_neg hs]
    have hge : ¬ (x * 2 ^ (64 - w) < 2 ^ 63) := by
      push_neg at hs ⊢
      calc (2 : Nat) ^ 63 = 2 ^ (w - 1) * 2 ^ (64 - w) := by rw [← pow_add]; congr 1; omega
      _ ≤ x * 2 ^ (64 - w) := Nat.mul_le_mul_right _ hs
    rw [if_neg hge]
    have h2 : ((2 : Int) ^ w) * 2 ^ (64 - w) = 2 ^ 64 := by
      rw [← pow_add]; congr 1; omega
    push_cast
    rw [sub_mul, h2]
    norm_num

theorem toInt64_u64OfInt (z : Int) (hlo : -((2 : Int) ^ 63) ≤ z) (hhi : z < 2 ^ 63) :
    toInt64 (u64OfInt z) = z := by
  unfold toInt64 u64OfInt
  split <;> omega

theorem u64OfInt_mod (q : Int) (w : Nat) (h64 : w ≤ 64) :
    (u64OfInt q) % 2 ^ w = (q % ((2 : Int) ^ w)).toNat := by
  have hd : ((2 : Int) ^ w) ∣ ((2 : Int) ^ 64) := pow_dvd_pow 2 h64
  have h1 : (q % ((2 : Int) ^ 64)) % ((2 : Int) ^ w) = q % 2 ^ w := Int.emod_emod_of_dvd q hd
  have hnn : (0 : Int) ≤ q % ((2 : Int) ^ 64) := Int.emod_nonneg q (by positivity)
  have hnn2 : (0 : Int) ≤ q % ((2 : Int) ^ w) := Int.emod_nonneg q (by positivity)
  have hcast : ((2 ^ w : Nat) : Int) = (2 : Int) ^ w := by push_cast; rfl
  have h2 : ((u64OfInt q % 2 ^ w : Nat) : Int) = q % 2 ^ w := by
    rw [Int.natCast_mod, hcast]
    unfold u64OfInt
    rw [Int.toNat_of_nonneg hnn, h1]
  have h3 : (((q % ((2 : Int) ^ w)).toNat : Nat) : Int) = q % 2 ^ w := Int.toNat_of_nonneg hnn2
  exact_mod_cast h2.trans h3.symm

theorem sInt_lower (w x : Nat) (hx : x < 2 ^ w) : -((2 : Int) ^ (w - 1)) ≤ sInt w x := by
  unfold sInt
  split
  · have h1 : (0 : Int) ≤ (x : Int) := Int.ofNat_nonneg x
    have h2 : (0 : Int) ≤ 2 ^ (w - 1) := by positivity
    omega
  · rename_i h
    push_neg at h
    have h1 : (2 : Int) ^ (w - 1) ≤ (x : Int) := by exact_mod_cast h
    have h2 : ((2 : Int) ^ w) ≤ 2 ^ (w - 1) * 2 := by
      rw [← pow_succ]
      exact pow_le_pow_right (by norm_num) (by omega)
    omega

theorem sInt_upper (w x : Nat) (h0 : 0 < w) (hx : x < 2 ^ w) : sInt w x < 2 ^ (w - 1) := by
  unfold sInt
  split
  · rename_i h
    exact_mod_cast h
  · have h1 : (x : Int) < 2 ^ w := by exact_mod_cast hx
    have h2 : (2 : Int) ^ w = 2 ^ (w - 1) * 2 := by
      rw [← pow_succ]
      congr 1
      omega
    have h3 : (0 : Int) < 2 ^ (w - 1) := by positivity
    omega

theorem pow63_le (w : Nat) (h64 : w ≤ 64) : ((2 : Int) ^ (w - 1)) ≤ 2 ^ 63 :=
  pow_le_pow_right (by norm_num) (by omega)

theorem toInt64_signExtendFrom (w x : Nat) (h0 : 0 < w) (h64 : w ≤ 64) (hx : x < 2 ^ w) :
    toInt64 (signExtendFrom w x) = sInt w x := by
  unfold signExtendFrom
  rw [toInt64_inflate w x h0 h64 hx]
  rw [Int.mul_fdiv_cancel _ (by positivity)]
  have hlo := sInt_lower w x hx
  have hhi := sInt_upper w x h0 hx
  have hle := pow63_le w h64
  exact toInt64_u64OfInt _ (by omega) (by omega)

theorem i64WrappingDiv_emod (x y : Int) :
    i64WrappingDiv x y % ((2 : Int) ^ 64) = Int.tdiv x y % ((2 : Int) ^ 64) := by
  unfold i64WrappingDiv
  split
  · rename_i h
    rw [h.1, h.2]
    decide
  · rfl

theorem i64WrappingRem_emod (x y : Int) :
    i64WrappingRem x y % ((2 : Int) ^ 64) = Int.tmod x y % ((2 : Int) ^ 64) := by
  unfold i64WrappingRem
  split
  · rename_i h
    rw [h.1, h.2]
    decide
  · rfl

/-- Clearing unused bits of a one-digit value built from an `i64` pattern
yields the pattern reduced modulo `2 ^ width`. -/
theorem clear_single_u64OfInt (w : Nat) (q : Int) (h0 : 0 < w) (h64 : w ≤ 64) :
    clearUnusedBits ⟨w, [u64OfInt q]⟩ = ⟨w, [(q % ((2 : Int) ^ w)).toNat]⟩ := by
  unfold clearUnusedBits excessBits
  by_cases hk : w % 64 = 0
  · rw [if_pos hk]
    have hw : w = 64 := by omega
    subst hw
    have := u64OfInt_mod q 64 (by norm_num)
    have h2 : u64OfInt q % 2 ^ 64 = u64OfInt q := by
      apply Nat.mod_eq_of_lt
      unfold u64OfInt
      have hnn : (0 : Int) ≤ q % ((2 : Int) ^ 64) := Int.emod_nonneg q (by positivity)
      have hlt : q % ((2 : Int) ^ 64) < 2 ^ 64 := Int.emod_lt_of_pos q (by positivity)
      omega
    rw [← this, h2]
  · rw [if_neg hk]
    have hw : w % 64 = w := Nat.mod_eq_of_lt (by omega)
    show ApInt.mk w [u64OfInt q % 2 ^ (w % 64)] = _
    rw [hw, u64OfInt_mod q w h64]

/-- A well-formed inline value has exactly its single digit as value. -/
theorem inline_digits (a : ApInt) (ha : a.wf) (h64 : a.width ≤ 64) :
    a.digits = [a.toNat] := by
  obtain ⟨h0, hlen, hb, hv⟩ := ha
  rw [requiredDigits_inline a.width h0 h64] at hlen
  have h1 := length_one_eq a.digits hlen
  have h2 : a.toNat = a.digits.headD 0 := by
    rw [ApInt.toNat]
    conv_lhs => rw [h1]
    simp [ofDigitsLE_cons, ofDigitsLE_nil]
  rw [h2, ← h1]

/-- The single digit of a well-formed inline value is below `2 ^ width`. -/
theorem inline_value_lt (a : ApInt) (ha : a.wf) : a.toNat < 2 ^ a.width := ha.2.2.2

/-! ### Addition, bitnot and negation machinery -/

theorem clearUnusedBits_bound (a : ApInt) (hb : ∀ d ∈ a.digits, d < digitBase) :
    ∀ d ∈ (clearUnusedBits a).digits, d < digitBase := by
  unfold clearUnusedBits
  split
  · exact hb
  · exact modifyLast_bound _ _ (fun y => Or.inr (Nat.mod_le y _)) a.digits hb

/-- Central lemma for every operation of the shape "compute digits, then
`clear_unused_bits`": if the digit list has the right length, 64-bit digits
and value `s mod B^n`, the cleared result is well-formed with value
`s mod 2^w`. -/
theorem clear_sum (w : Nat) (ds : List Nat) (h0 : 0 < w) (hlen : ds.length = requiredDigits w)
    (hbd : ∀ d ∈ ds, d < digitBase) (s : Nat)
    (hval : ofDigitsLE digitBase ds = s % digitBase ^ requiredDigits w) :
    (clearUnusedBits ⟨w, ds⟩).toNat = s % 2 ^ w ∧ (clearUnusedBits ⟨w, ds⟩).wf ∧
      (clearUnusedBits ⟨w, ds⟩).width = w := by
  have hdvd : (2 : Nat) ^ w ∣ digitBase ^ requiredDigits w := by
    unfold digitBase
    rw [← pow_mul]
    apply pow_dvd_pow
    unfold requiredDigits
    omega
  have hv : (clearUnusedBits ⟨w, ds⟩).toNat = s % 2 ^ w := by
    rw [clearUnusedBits_toNat ⟨w, ds⟩ h0 hlen hbd]
    show ofDigitsLE digitBase ds % 2 ^ w = _
    rw [hval, Nat.mod_mod_of_dvd s hdvd]
  refine ⟨hv, ⟨?_, ?_, ?_, ?_⟩, clearUnusedBits_width _⟩
  · rw [clearUnusedBits_width]
    exact h0
  · rw [clearUnusedBits_length, clearUnusedBits_width]
    exact hlen
  · exact clearUnusedBits_bound ⟨w, ds⟩ hbd
  · rw [show (clearUnusedBits ⟨w, ds⟩).width = w from clearUnusedBits_width _, hv]
    exact Nat.mod_lt _ (pow_pos (by norm_num) _)

/-- `checked_add_assign` on well-formed same-width operands: success, and the
result is the wrapped sum. -/
theorem add_ok (a b : ApInt) (ha : a.wf) (hb : b.wf) (hw : b.width = a.width) :
    ∃ c, checkedAddAssign a b = .ok c ∧ c.width = a.width ∧
      c.toNat = (a.toNat + b.toNat) % 2 ^ a.width ∧ c.wf := by
  have h0 : 0 < a.width := ha.1
  unfold checkedAddAssign
  rw [if_neg (by omega)]
  by_cases h64 : a.width ≤ 64
  · rw [if_pos (by simp [isInline]; omega)]
    have hda : a.digits = [a.toNat] := inline_digits a ha h64
    have hdb : b.digits = [b.toNat] := inline_digits b hb (hw ▸ h64)
    rw [hda, hdb]
    have hreq : requiredDigits a.width = 1 := requiredDigits_inline a.width h0 h64
    have hcs := clear_sum a.width [(([a.toNat].headD 0 + [b.toNat].headD 0)) % digitBase] h0
      (by simp [hreq]) (by intro d hd; simp at hd; subst hd; exact Nat.mod_lt _ digitBase_pos)
      (a.toNat + b.toNat)
      (by simp [ofDigitsLE_cons, ofDigitsLE_nil, hreq, pow_one])
    exact ⟨_, rfl, hcs.2.2, hcs.1, hcs.2.1⟩
  · rw [if_neg (by simp [isInline]; omega)]
    have hlena : a.digits.length = requiredDigits a.width := ha.2.1
    have hlenb : b.digits.length = a.digits.length := by
      rw [hb.2.1, hw, hlena]
    have hchlen : (carryAddChain a.digits b.digits 0).length = requiredDigits a.width := by
      rw [carryAddChain_length a.digits b.digits 0 hlenb.symm, hlena]
    have hchbd := carryAddChain_bound a.digits b.digits 0 hlenb.symm
    have hchval : ofDigitsLE digitBase (carryAddChain a.digits b.digits 0) =
        (a.toNat + b.toNat) % digitBase ^ requiredDigits a.width := by
      rw [carryAddChain_value a.digits b.digits 0 hlenb.symm, hlena]
      show (a.toNat + b.toNat + 0) % _ = _
      rw [Nat.add_zero]
    have hcs := clear_sum a.width (carryAddChain a.digits b.digits 0) h0 hchlen hchbd
      (a.toNat + b.toNat) hchval
    exact ⟨_, rfl, hcs.2.2, hcs.1, hcs.2.1⟩

/-- Value of the digit-wise complement. -/
theorem map_not_value (l : List Nat) (hb : ∀ d ∈ l, d < digitBase) :
    ofDigitsLE digitBase (l.map (fun d => digitBase - 1 - d)) + ofDigitsLE digitBase l =
      digitBase ^ l.length - 1 := by
  induction l with
  | nil => simp [ofDigitsLE]
  | cons d ds ih =>
    have hd : d < digitBase := hb d (by simp)
    have ihh := ih (fun x hx => hb x (by simp [hx]))
    simp only [List.map_cons, ofDigitsLE_cons, List.length_cons]
    have hP : 1 ≤ digitBase ^ ds.length := Nat.one_le_pow _ _ digitBase_pos
    have hmul : digitBase * (digitBase ^ ds.length - 1) =
        digitBase * digitBase ^ ds.length - digitBase := by
      rw [Nat.mul_sub_left_distrib, Nat.mul_one]
    have hBle : digitBase ≤ digitBase * digitBase ^ ds.length :=
      Nat.le_mul_of_pos_right digitBase (pow_pos digitBase_pos _)
    have hrw : digitBase - 1 - d + digitBase * ofDigitsLE digitBase (List.map
        (fun d => digitBase - 1 - d) ds) + (d + digitBase * ofDigitsLE digitBase ds) =
        (digitBase - 1 - d + d) + digitBase * (ofDigitsLE digitBase (List.map
        (fun d => digitBase - 1 - d) ds) + ofDigitsLE digitBase ds) := by
      ring
    rw [hrw, ihh, hmul]
    rw [pow_succ, Nat.mul_comm (digitBase ^ ds.length) digitBase]
    omega

/-- `bitnot` on a well-formed value: well-formed, same width, value the
bitwise complement `2^w − 1 − v`. -/
theorem bitnot_spec (a : ApInt) (ha : a.wf) :
    a.bitnot.wf ∧ a.bitnot.width = a.width ∧
      a.bitnot.toNat = 2 ^ a.width - 1 - a.toNat := by
  obtain ⟨h0, hlen, hbd, hv⟩ := ha
  have hmlen : (a.digits.map (fun d => digitBase - 1 - d)).length = requiredDigits a.width := by
    rw [List.length_map, hlen]
  have hmbd : ∀ d ∈ a.digits.map (fun d => digitBase - 1 - d), d < digitBase := by
    intro d hd
    obtain ⟨x, hx, hfx⟩ := List.mem_map.mp hd
    have := digitBase_pos
    omega
  have hmv := map_not_value a.digits hbd
  have hvlt : a.toNat < digitBase ^ requiredDigits a.width := by
    have h1 := ofDigitsLE_lt digitBase a.digits hbd
    rw [hlen] at h1
    exact h1
  have hval : ofDigitsLE digitBase (a.digits.map (fun d => digitBase - 1 - d)) =
      (digitBase ^ requiredDigits a.width - 1 - a.toNat) % digitBase ^ requiredDigits a.width := by
    have htn : a.toNat = ofDigitsLE digitBase a.digits := rfl
    rw [hlen] at hmv
    rw [Nat.mod_eq_of_lt (by omega), htn]
    omega
  have hcs := clear_sum a.width (a.digits.map (fun d => digitBase - 1 - d)) h0 hmlen hmbd
    (digitBase ^ requiredDigits a.width - 1 - a.toNat) hval
  refine ⟨hcs.2.1, hcs.2.2, ?_⟩
  show (clearUnusedBits _).toNat = _
  rw [hcs.1]
  have hsplit : digitBase ^ requiredDigits a.width = 2 ^ a.width * 2 ^ (64 * requiredDigits a.width - a.width) := by
    unfold digitBase
    rw [← pow_mul, ← pow_add]
    congr 1
    unfold requiredDigits
    omega
  have hE : 1 ≤ 2 ^ (64 * requiredDigits a.width - a.width) := Nat.one_le_pow _ _ (by norm_num)
  have hmul : 2 ^ a.width * (2 ^ (64 * requiredDigits a.width - a.width) - 1) =
      2 ^ a.width * 2 ^ (64 * requiredDigits a.width - a.width) - 2 ^ a.width := by
    rw [Nat.mul_sub_left_distrib, Nat.mul_one]
  have h2w : 1 ≤ 2 ^ a.width := Nat.one_le_pow _ _ (by norm_num)
  have hrw : digitBase ^ requiredDigits a.width - 1 - a.toNat =
      (2 ^ a.width - 1 - a.toNat) + 2 ^ a.width * (2 ^ (64 * requiredDigits a.width - a.width) - 1) := by
    rw [hmul, hsplit]
    have hle : 2 ^ a.width ≤ 2 ^ a.width * 2 ^ (64 * requiredDigits a.width - a.width) :=
      Nat.le_mul_of_pos_right _ (pow_pos (by norm_num) _)
    omega
  rw [hrw, Nat.add_mul_mod_self_left, Nat.mod_eq_of_lt (by omega)]

/-- The constant `one(w)`. -/
theorem one_spec (w : Nat) (h0 : 0 < w) :
    (ApInt.one w).wf ∧ (ApInt.one w).toNat = 1 ∧ (ApInt.one w).width = w := by
  have hlen : (ApInt.one w).digits.length = requiredDigits w := by
    show (1 :: List.replicate (requiredDigits w - 1) 0).length = _
    simp [List.length_replicate]
    have := requiredDigits_pos w h0
    omega
  have hval : (ApInt.one w).toNat = 1 := by
    show ofDigitsLE digitBase (1 :: List.replicate (requiredDigits w - 1) 0) = 1
    rw [ofDigitsLE_cons, ofDigitsLE_replicate_zero]
    omega
  refine ⟨⟨h0, hlen, ?_, ?_⟩, hval, rfl⟩
  · intro d hd
    rcases List.mem_cons.mp hd with hd | hd
    · subst hd
      show (1 : Nat) < digitBase
      decide
    · rw [List.eq_of_mem_replicate hd]
      exact digitBase_pos
  · rw [hval]
    show (1 : Nat) < 2 ^ w
    exact Nat.one_lt_two_pow_iff.mpr (by omega)

/-- `negate` on a well-formed value: well-formed, same width, value the
two's-complement negation `(2^w − v) mod 2^w`. -/
theorem negate_spec (a : ApInt) (ha : a.wf) :
    a.negate.wf ∧ a.negate.width = a.width ∧
      a.negate.toNat = (2 ^ a.width - a.toNat) % 2 ^ a.width := by
  have h0 : 0 < a.width := ha.1
  obtain ⟨hnwf, hnw, hnv⟩ := bitnot_spec a ha
  obtain ⟨howf, hov, how⟩ := one_spec a.width h0
  obtain ⟨c, hc, hcw, hcv, hcwf⟩ := add_ok a.bitnot (ApInt.one a.width) hnwf howf (by rw [how, hnw])
  have hneg : a.negate = clearUnusedBits c := by
    unfold ApInt.negate
    rw [hc]
  rw [hneg, clearUnusedBits_of_wf c hcwf]
  have hv2 : c.toNat = (2 ^ a.width - a.toNat) % 2 ^ a.width := by
    rw [hcv, hnv, hov, hnw]
    congr 1
    have h2w : 1 ≤ 2 ^ a.width := Nat.one_le_pow _ _ (by norm_num)
    have hva : a.toNat < 2 ^ a.width := ha.2.2.2
    omega
  exact ⟨hcwf, by rw [hcw, hnw], hv2⟩

/-- Structural equality from equal widths and equal values, for well-formed
operands (spec §3 invariant 4 direction used in proofs). -/
theorem wf_eq_of_toNat (x y : ApInt) (hx : x.wf) (hy : y.wf) (hw : x.width = y.width)
    (hv : x.toNat = y.toNat) : x = y := by
  obtain ⟨_, hxl, hxb, _⟩ := hx
  obtain ⟨_, hyl, hyb, _⟩ := hy
  have hlen : x.digits.length = y.digits.length := by rw [hxl, hyl, hw]
  have hdig := ofDigitsLE_inj digitBase digitBase_pos x.digits y.digits hlen hxb hyb hv
  cases x
  cases y
  simp_all

/-- `signedMinValue`. -/
theorem signedMinValue_spec (w : Nat) (h0 : 0 < w) :
    (signedMinValue w).wf ∧ (signedMinValue w).width = w ∧
      (signedMinValue w).toNat = 2 ^ (w - 1) := by
  have hn := requiredDigits_pos w h0
  have hle : 64 * (requiredDigits w - 1) ≤ w - 1 := by
    unfold requiredDigits at *
    omega
  have he : w - 1 - 64 * (requiredDigits w - 1) ≤ 63 := by
    unfold requiredDigits at *
    omega
  have hval : (signedMinValue w).toNat = 2 ^ (w - 1) := by
    show ofDigitsLE digitBase (List.replicate (requiredDigits w - 1) 0 ++
      [2 ^ (w - 1 - 64 * (requiredDigits w - 1))]) = _
    rw [ofDigitsLE_append, ofDigitsLE_replicate_zero, List.length_replicate]
    show 0 + digitBase ^ (requiredDigits w - 1) * (2 ^ (w - 1 - 64 * (requiredDigits w - 1)) +
      digitBase * 0) = _
    unfold digitBase
    rw [← pow_mul, Nat.mul_zero, Nat.add_zero, Nat.zero_add, ← pow_add]
    congr 1
    omega
  have hlen : (signedMinValue w).digits.length = requiredDigits w := by
    show (List.replicate (requiredDigits w - 1) 0 ++ [_]).length = _
    simp [List.length_replicate]
    omega
  refine ⟨⟨h0, hlen, ?_, ?_⟩, rfl, hval⟩
  · intro d hd
    rcases List.mem_append.mp hd with hd | hd
    · rw [List.eq_of_mem_replicate hd]
      exact digitBase_pos
    · have hde : d = 2 ^ (w - 1 - 64 * (requiredDigits w - 1)) := by simpa using hd
      subst hde
      show _ < 2 ^ 64
      exact Nat.pow_lt_pow_right (by norm_num) (by omega)
  · rw [hval]
    show 2 ^ (w - 1) < 2 ^ w
    exact Nat.pow_lt_pow_right (by norm_num) (by omega)

/-! ### Serialization machinery: base-b digits, chunking, packing -/

theorem toDigitsLEAux_ofDigits (b : Nat) (hb : 2 ≤ b) :
    ∀ (f n : Nat), n < b ^ f → ofDigitsLE b (toDigitsLEAux b f n) = n := by
  intro f
  induction f with
  | zero =>
    intro n hn
    simp only [pow_zero] at hn
    interval_cases n
    rfl
  | succ f ih =>
    intro n hn
    match n with
    | 0 => rfl
    | m + 1 =>
      show ofDigitsLE b ((m + 1) % b :: toDigitsLEAux b f ((m + 1) / b)) = m + 1
      rw [ofDigitsLE_cons]
      have hdiv : (m + 1) / b < b ^ f := by
        rw [Nat.div_lt_iff_lt_mul (by omega)]
        calc m + 1 < b ^ (f + 1) := hn
        _ = b ^ f * b := by rw [pow_succ]
      rw [ih _ hdiv]
      have := Nat.div_add_mod (m + 1) b
      omega

theorem toDigitsLEAux_length (b : Nat) (hb : 2 ≤ b) :
    ∀ (f k n : Nat), n < b ^ k → k ≤ f → (toDigitsLEAux b f n).length ≤ k := by
  intro f
  induction f with
  | zero =>
    intro k n _ _
    simp [toDigitsLEAux]
  | succ f ih =>
    intro k n hn hk
    match n with
    | 0 => simp [toDigitsLEAux]
    | m + 1 =>
      show ((m + 1) % b :: toDigitsLEAux b f ((m + 1) / b)).length ≤ k
      have hk1 : 1 ≤ k := by
        by_contra hc
        push_neg at hc
        interval_cases k
        simp at hn
      have hdiv : (m + 1) / b < b ^ (k - 1) := by
        rw [Nat.div_lt_iff_lt_mul (by omega)]
        calc m + 1 < b ^ k := hn
        _ = b ^ (k - 1) * b := by
          rw [← pow_succ]
          congr 1
          omega
      have := ih (k - 1) ((m + 1) / b) hdiv (by omega)
      simp only [List.length_cons]
      omega

theorem toDigitsLEAux_bound (b : Nat) (hb : 2 ≤ b) :
    ∀ (f n : Nat), ∀ d ∈ toDigitsLEAux b f n, d < b := by
  intro f
  induction f with
  | zero => intro n d hd; simp [toDigitsLEAux] at hd
  | succ f ih =>
    intro n d hd
    match n with
    | 0 => simp [toDigitsLEAux] at hd
    | m + 1 =>
      rw [show toDigitsLEAux b (f + 1) (m + 1) =
        (m + 1) % b :: toDigitsLEAux b f ((m + 1) / b) from rfl] at hd
      rcases List.mem_cons.mp hd with hd | hd
      · subst hd
        exact Nat.mod_lt _ (by omega)
      · exact ih _ d hd

theorem toDigitsLE_ne_nil (b n : Nat) (hn : 0 < n) : toDigitsLE b n ≠ [] := by
  unfold toDigitsLE
  match n, hn with
  | m + 1, _ =>
    show (m + 1) % b :: _ ≠ []
    simp

theorem toDigitsLE_ofDigits (b n : Nat) (hb : 2 ≤ b) (hn : n < digitBase) :
    ofDigitsLE b (toDigitsLE b n) = n := by
  apply toDigitsLEAux_ofDigits b hb 64 n
  calc n < digitBase := hn
  _ = 2 ^ 64 := rfl
  _ ≤ b ^ 64 := Nat.pow_le_pow_left hb 64

theorem toDigitsLE_length (b k n : Nat) (hb : 2 ≤ b) (hk : k ≤ 64) (hn : n < b ^ k) :
    (toDigitsLE b n).length ≤ k :=
  toDigitsLEAux_length b hb 64 k n hn hk

theorem toDigitsLE_bound (b n : Nat) (hb : 2 ≤ b) : ∀ d ∈ toDigitsLE b n, d < b :=
  toDigitsLEAux_bound b hb 64 n

/-! Chunking. -/

theorem chunksFuel_congr (c : Nat) (hc : 0 < c) :
    ∀ (f1 f2 : Nat) (l : List Nat), l.length ≤ f1 → l.length ≤ f2 →
      chunksFuel c f1 l = chunksFuel c f2 l := by
  intro f1
  induction f1 with
  | zero =>
    intro f2 l h1 _
    have : l = [] := List.length_eq_zero.mp (by omega)
    subst this
    cases f2 <;> rfl
  | succ f1 ih =>
    intro f2 l h1 h2
    match l with
    | [] => cases f2 <;> rfl
    | x :: xs =>
      match f2 with
      | 0 => simp at h2
      | f2 + 1 =>
        show (x :: xs).take c :: chunksFuel c f1 ((x :: xs).drop c) =
          (x :: xs).take c :: chunksFuel c f2 ((x :: xs).drop c)
        congr 1
        apply ih
        · rw [List.length_drop]
          simp only [List.length_cons] at h1 ⊢
          omega
        · rw [List.length_drop]
          simp only [List.length_cons] at h2 ⊢
          omega

theorem chunksOf_unfold (c : Nat) (hc : 0 < c) (l : List Nat) (hl : l ≠ []) :
    chunksOf c l = l.take c :: chunksOf c (l.drop c) := by
  match l, hl with
  | x :: xs, _ =>
    show chunksFuel c (x :: xs).length (x :: xs) = _
    rw [show chunksFuel c (x :: xs).length (x :: xs) =
      (x :: xs).take c :: chunksFuel c xs.length ((x :: xs).drop c) from rfl]
    congr 1
    apply chunksFuel_congr c hc
    · rw [List.length_drop]
      simp only [List.length_cons]
      omega
    · rw [List.length_drop]

theorem chunksOf_append_block (c : Nat) (hc : 0 < c) (l1 l2 : List Nat) (h : l1.length = c) :
    chunksOf c (l1 ++ l2) = l1 :: chunksOf c l2 := by
  have hne : l1 ++ l2 ≠ [] := by
    intro hcon
    rw [List.append_eq_nil] at hcon
    rw [hcon.1] at h
    simp at h
    omega
  rw [chunksOf_unfold c hc _ hne]
  congr 1
  · rw [← h]
    exact List.take_left l1 l2
  · rw [← h]
    rw [List.drop_left l1 l2]

theorem chunksOf_short (c : Nat) (l : List Nat) (h0 : l ≠ []) (hc : l.length ≤ c) :
    chunksOf c l = [l] := by
  have hcpos : 0 < c := by
    have : 0 < l.length := List.length_pos.mpr h0
    omega
  rw [chunksOf_unfold c hcpos l h0]
  rw [List.take_of_length_le hc, List.drop_of_length_le hc]
  rfl

theorem chunksOf_length_64 : ∀ (n : Nat) (l : List Nat), l.length ≤ n →
    (chunksOf 64 l).length = (l.length + 63) / 64 := by
  intro n
  induction n with
  | zero =>
    intro l hl
    have : l = [] := List.length_eq_zero.mp (by omega)
    subst this
    rfl
  | succ n ih =>
    intro l hl
    match l with
    | [] => rfl
    | x :: xs =>
      rw [chunksOf_unfold 64 (by norm_num) (x :: xs) (by simp)]
      rw [List.length_cons]
      rw [ih _ (by rw [List.length_drop]; simp only [List.length_cons] at hl ⊢; omega)]
      rw [List.length_drop]
      simp only [List.length_cons]
      omega

/-! The shift-and-or packing fold of `from_bitwise_digits`. -/

theorem pack_fold (p : Nat) (hp : 0 < p) :
    ∀ (l : List Nat) (acc : Nat), (∀ d ∈ l, d < 2 ^ p) →
      (acc + 1) * 2 ^ (p * l.length) ≤ 2 ^ 64 →
      l.foldl (fun acc c => ((acc * 2 ^ p) % digitBase) ||| c) acc =
        acc * 2 ^ (p * l.length) + ofDigitsLE (2 ^ p) l.reverse := by
  intro l
  induction l with
  | nil =>
    intro acc _ _
    simp [ofDigitsLE]
  | cons d rest ih =>
    intro acc hbd hacc
    have hd : d < 2 ^ p := hbd d (by simp)
    rw [show (d :: rest).length = rest.length + 1 from rfl] at hacc
    have hple : (2 : Nat) ^ p ≤ 2 ^ (p * (rest.length + 1)) :=
      Nat.pow_le_pow_right (by norm_num) (by nlinarith)
    have haccp : (acc + 1) * 2 ^ p ≤ 2 ^ 64 :=
      le_trans (Nat.mul_le_mul_left _ hple) hacc
    have hexp : acc * 2 ^ p + 2 ^ p ≤ 2 ^ 64 := by
      have hh : (acc + 1) * 2 ^ p = acc * 2 ^ p + 2 ^ p := by ring
      omega
    have hppos : 0 < (2 : Nat) ^ p := pow_pos (by norm_num) p
    have hmod : (acc * 2 ^ p) % digitBase = acc * 2 ^ p := by
      apply Nat.mod_eq_of_lt
      show acc * 2 ^ p < 2 ^ 64
      omega
    have hlor : (acc * 2 ^ p) ||| d = acc * 2 ^ p + d := by
      rw [Nat.mul_comm acc (2 ^ p)]
      exact lor_of_lt p acc d hd
    simp only [List.foldl_cons]
    rw [hmod, hlor]
    have hbd2 : ∀ x ∈ rest, x < 2 ^ p := fun x hx => hbd x (by simp [hx])
    have hacc2 : (acc * 2 ^ p + d + 1) * 2 ^ (p * rest.length) ≤ 2 ^ 64 := by
      have h1 : acc * 2 ^ p + d + 1 ≤ (acc + 1) * 2 ^ p := by
        have hh : (acc + 1) * 2 ^ p = acc * 2 ^ p + 2 ^ p := by ring
        omega
      have h2 : (acc * 2 ^ p + d + 1) * 2 ^ (p * rest.length) ≤
          ((acc + 1) * 2 ^ p) * 2 ^ (p * rest.length) := Nat.mul_le_mul_right _ h1
      have h3 : ((acc + 1) * 2 ^ p) * 2 ^ (p * rest.length) =
          (acc + 1) * 2 ^ (p * (rest.length + 1)) := by
        rw [Nat.mul_assoc, ← pow_add]
        congr 2
        ring
      omega
    rw [ih (acc * 2 ^ p + d) hbd2 hacc2]
    rw [show (d :: rest).reverse = rest.reverse ++ [d] from by simp]
    rw [ofDigitsLE_append]
    simp only [List.length_reverse, List.length_cons, ofDigitsLE_cons, ofDigitsLE_nil]
    rw [← pow_mul]
    ring

/-- Folding one chunk (little-endian digit values below `2^p`, at most
`64 / p` of them) recovers its value. -/
theorem chunk_fold_value (p c : Nat) (hp : 0 < p) (hpc : p * c = 64)
    (chunk : List Nat) (hbd : ∀ d ∈ chunk, d < 2 ^ p) (hlen : chunk.length ≤ c) :
    chunk.reverse.foldl (fun acc c => ((acc * 2 ^ p) % digitBase) ||| c) 0 =
      ofDigitsLE (2 ^ p) chunk := by
  have h1 := pack_fold p hp chunk.reverse 0
    (by intro d hd; exact hbd d (List.mem_reverse.mp hd))
    (by
      simp only [List.length_reverse, Nat.one_mul, Nat.zero_add]
      apply Nat.pow_le_pow_right (by norm_num)
      calc p * chunk.length ≤ p * c := Nat.mul_le_mul_left _ hlen
      _ = 64 := hpc)
  rw [h1]
  simp

/-! ### Format / translate structure lemmas -/

theorem headD_mem (l : List Nat) (hne : l ≠ []) : l.headD 0 ∈ l := by
  match l, hne with
  | x :: xs, _ => simp

theorem flatten_map_reverse (f : Nat → List Nat) :
    ∀ L : List Nat, (List.flatten (L.map f)).reverse =
      List.flatten (L.reverse.map (fun d => (f d).reverse)) := by
  intro L
  induction L with
  | nil => rfl
  | cons d L ih =>
    simp only [List.map_cons, List.flatten_cons, List.reverse_append, ih, List.reverse_cons,
      List.map_append, List.flatten_append, List.map_cons, List.flatten_cons,
      List.map_nil, List.flatten_nil, List.append_nil]

/-- The reverse of one zero-padded formatted digit: the LE digits followed by
zero padding, a full block of `pad` characters. -/
theorem fmtDigitPaddedBE_reverse (b pad d : Nat) :
    (fmtDigitPaddedBE b pad d).reverse =
      toDigitsLE b d ++ List.replicate (pad - (toDigitsLE b d).length) 0 := by
  unfold fmtDigitPaddedBE
  rw [List.reverse_append, List.reverse_replicate, List.reverse_reverse]

theorem fmtDigitPaddedBE_rev_length (b pad d : Nat) (h : (toDigitsLE b d).length ≤ pad) :
    ((fmtDigitPaddedBE b pad d).reverse).length = pad := by
  rw [fmtDigitPaddedBE_reverse]
  simp only [List.length_append, List.length_replicate]
  omega

theorem ofDigitsLE_pad (b d pad : Nat) (hb : 2 ≤ b) (hd : d < digitBase) :
    ofDigitsLE b (toDigitsLE b d ++ List.replicate pad 0) = d := by
  rw [ofDigitsLE_append, ofDigitsLE_replicate_zero, Nat.mul_zero, Nat.add_zero]
  exact toDigitsLE_ofDigits b d hb hd

/-- Structure of power-of-two formatting for a value with nonzero top
digit: the top digit without leading zeros, then the lower digits fully
padded, in big-endian order. -/
theorem formatRadixPow2_structure (b pad : Nat) (w : Nat) (init : List Nat) (m : Nat)
    (hm : m ≠ 0) :
    formatRadixPow2 b pad ⟨w, init ++ [m]⟩ =
      fmtDigitBE b m ++ ((init.reverse).map (fmtDigitPaddedBE b pad)).flatten := by
  unfold formatRadixPow2
  have hnz : (ApInt.mk w (init ++ [m])).isZero = false := by
    unfold ApInt.isZero
    simp [hm]
  rw [hnz]
  simp only [Bool.false_eq_true, if_false]
  have hrev : (ApInt.mk w (init ++ [m])).digits.reverse = m :: init.reverse := by
    simp
  rw [hrev]
  rw [List.dropWhile_cons]
  simp [hm]

theorem formatRadixPow2_bound (b pad : Nat) (hb : 2 ≤ b) (a : ApInt) :
    ∀ d ∈ formatRadixPow2 b pad a, d < b := by
  intro d hd
  unfold formatRadixPow2 at hd
  split at hd
  · simp at hd
    omega
  · split at hd
    · simp at hd
    · rename_i x rest heq
      rcases List.mem_append.mp hd with hd | hd
      · exact toDigitsLE_bound b x hb d (List.mem_reverse.mp hd)
      · obtain ⟨blk, hblk, hdblk⟩ := List.mem_flatten.mp hd
        obtain ⟨y, _, hy⟩ := List.mem_map.mp hblk
        subst hy
        unfold fmtDigitPaddedBE at hdblk
        rcases List.mem_append.mp hdblk with hd2 | hd2
        · rw [List.eq_of_mem_replicate hd2]
          omega
        · exact toDigitsLE_bound b y hb d (List.mem_reverse.mp hd2)

theorem digitToLowerAscii_ne_95 (d : Nat) (hd : d < 36) : digitToLowerAscii d ≠ 95 := by
  unfold digitToLowerAscii
  split <;> omega

theorem byteToDigit_ascii (d : Nat) (hd : d < 36) : byteToDigit (digitToLowerAscii d) = d := by
  unfold digitToLowerAscii byteToDigit
  by_cases h10 : d < 10
  · rw [if_pos h10, if_pos (by omega)]
    omega
  · rw [if_neg h10, if_neg (by omega), if_pos (by omega)]
    omega

theorem translateBytes_format (radix : Nat) :
    ∀ (l : List Nat) (i : Nat), (∀ d ∈ l, d < radix ∧ d < 36) →
      translateBytes radix i (l.map digitToLowerAscii) = .ok l := by
  intro l
  induction l with
  | nil => intro i _; rfl
  | cons d ds ih =>
    intro i h
    obtain ⟨hdr, hd36⟩ := h d (by simp)
    have hih := ih (i + 1) (fun x hx => h x (by simp [hx]))
    show translateBytes radix i (digitToLowerAscii d :: ds.map digitToLowerAscii) = _
    rw [show translateBytes radix i (digitToLowerAscii d :: ds.map digitToLowerAscii) =
      if digitToLowerAscii d = 95 then translateBytes radix (i + 1) (ds.map digitToLowerAscii)
      else if byteToDigit (digitToLowerAscii d) < radix then
        match translateBytes radix (i + 1) (ds.map digitToLowerAscii) with
        | .ok ds2 => .ok (byteToDigit (digitToLowerAscii d) :: ds2)
        | .error e => .error e
      else .error (.invalidCharInStringRepr i (digitToLowerAscii d)) from rfl]
    rw [if_neg (digitToLowerAscii_ne_95 d hd36), byteToDigit_ascii d hd36, if_pos hdr, hih]

theorem translateBytes_bound (radix : Nat) :
    ∀ (bs : List Nat) (i : Nat) (v : List Nat), translateBytes radix i bs = .ok v →
      ∀ d ∈ v, d < radix := by
  intro bs
  induction bs with
  | nil =>
    intro i v h d hd
    have : v = [] := by
      simpa [translateBytes] using h.symm
    subst this
    simp at hd
  | cons c cs ih =>
    intro i v h d hd
    rw [show translateBytes radix i (c :: cs) =
      if c = 95 then translateBytes radix (i + 1) cs
      else if byteToDigit c < radix then
        match translateBytes radix (i + 1) cs with
        | .ok ds => .ok (byteToDigit c :: ds)
        | .error e => .error e
      else .error (.invalidCharInStringRepr i c) from rfl] at h
    by_cases h95 : c = 95
    · rw [if_pos h95] at h
      exact ih (i + 1) v h d hd
    · rw [if_neg h95] at h
      by_cases hlt : byteToDigit c < radix
      · rw [if_pos hlt] at h
        rcases hrec : translateBytes radix (i + 1) cs with e | ds
        · rw [hrec] at h
          simp at h
        · rw [hrec] at h
          simp only [Except.ok.injEq] at h
          subst h
          rcases List.mem_cons.mp hd with hd | hd
          · subst hd
            exact hlt
          · exact ih (i + 1) ds hrec d hd
      · rw [if_neg hlt] at h
        simp at h

/-- All bytes produced by formatting are digit characters, never `'_'`. -/
theorem format_bytes_ne_95 (vals : List Nat) (hbd : ∀ d ∈ vals, d < 36) :
    ∀ byte ∈ vals.map digitToLowerAscii, byte ≠ 95 := by
  intro byte hb
  obtain ⟨d, hd, hmap⟩ := List.mem_map.mp hb
  subst hmap
  exact digitToLowerAscii_ne_95 d (hbd d hd)

/-- Chunking a concatenation of full `c`-blocks followed by a short final
block. -/
theorem chunks_of_blocks (c : Nat) (hc : 0 < c) (g : Nat → List Nat) :
    ∀ (L : List Nat), (∀ d ∈ L, (g d).length = c) → ∀ last : List Nat, last ≠ [] →
      last.length ≤ c →
      chunksOf c (List.flatten (L.map g) ++ last) = L.map g ++ [last] := by
  intro L
  induction L with
  | nil =>
    intro _ last hne hlen
    simp only [List.map_nil, List.flatten_nil, List.nil_append]
    exact chunksOf_short c last hne hlen
  | cons d L ih =>
    intro hg last hne hlen
    simp only [List.map_cons, List.flatten_cons, List.append_assoc]
    rw [chunksOf_append_block c hc _ _ (hg d (by simp))]
    rw [ih (fun x hx => hg x (by simp [hx])) last hne hlen]
    simp

/-- Core of the parse/format round trip: packing the reversed formatted
digit values recovers exactly the original digit sequence, at width
`64 · len`. -/
theorem fromBitwise_format_roundtrip (p : Nat) (hp : 0 < p) (hdvd : p ∣ 64)
    (init : List Nat) (m : Nat) (hm : m ≠ 0)
    (hbd : ∀ d ∈ init ++ [m], d < digitBase) :
    fromBitwiseDigits
      (formatRadixPow2 (2 ^ p) (64 / p) ⟨64 * (init.length + 1), init ++ [m]⟩).reverse p =
      ⟨64 * (init.length + 1), init ++ [m]⟩ := by
  have hp64 : p ≤ 64 := Nat.le_of_dvd (by norm_num) hdvd
  have hpc : p * (64 / p) = 64 := Nat.mul_div_cancel' hdvd
  have hc0 : 0 < 64 / p := Nat.div_pos hp64 hp
  have hc64 : 64 / p ≤ 64 := Nat.div_le_self 64 p
  have hb2 : 2 ≤ 2 ^ p := by
    calc (2 : Nat) = 2 ^ 1 := (pow_one 2).symm
    _ ≤ 2 ^ p := Nat.pow_le_pow_right (by norm_num) hp
  have hbc : digitBase = (2 ^ p) ^ (64 / p) := by
    unfold digitBase
    rw [← pow_mul, hpc]
  have hlenD : ∀ d, d < digitBase → (toDigitsLE (2 ^ p) d).length ≤ 64 / p := by
    intro d hd
    apply toDigitsLE_length (2 ^ p) (64 / p) d hb2 hc64
    rw [← hbc]
    exact hd
  have hgm : ∀ d ∈ init, ((fmtDigitPaddedBE (2 ^ p) (64 / p) d).reverse).length = 64 / p := by
    intro d hd
    exact fmtDigitPaddedBE_rev_length _ _ _ (hlenD d (hbd d (by simp [hd])))
  have hmlt : m < digitBase := hbd m (by simp)
  have hmne : toDigitsLE (2 ^ p) m ≠ [] := toDigitsLE_ne_nil _ m (by omega)
  have hmlen : (toDigitsLE (2 ^ p) m).length ≤ 64 / p := hlenD m hmlt
  rw [formatRadixPow2_structure (2 ^ p) (64 / p) _ init m hm]
  rw [List.reverse_append, flatten_map_reverse, List.reverse_reverse]
  rw [show (fmtDigitBE (2 ^ p) m).reverse = toDigitsLE (2 ^ p) m from by
    unfold fmtDigitBE
    rw [List.reverse_reverse]]
  simp only [fromBitwiseDigits]
  rw [chunks_of_blocks (64 / p) hc0 _ init hgm (toDigitsLE (2 ^ p) m) hmne hmlen]
  have hfold : ∀ chunk : List Nat, (∀ d ∈ chunk, d < 2 ^ p) → chunk.length ≤ 64 / p →
      chunk.reverse.foldl (fun acc c => ((acc * 2 ^ p) % digitBase) ||| c) 0 =
        ofDigitsLE (2 ^ p) chunk :=
    fun chunk h1 h2 => chunk_fold_value p (64 / p) hp hpc chunk h1 h2
  have hmapped : (init.map (fun d => (fmtDigitPaddedBE (2 ^ p) (64 / p) d).reverse) ++
      [toDigitsLE (2 ^ p) m]).map
        (fun chunk => chunk.reverse.foldl (fun acc c => ((acc * 2 ^ p) % digitBase) ||| c) 0) =
      init ++ [m] := by
    rw [List.map_append, List.map_map]
    congr 1
    · apply List.map_congr_left ?_ |>.trans (List.map_id init)
      intro d hd
      show (((fmtDigitPaddedBE (2 ^ p) (64 / p) d).reverse).reverse.foldl _ 0) = d
      rw [hfold _ ?_ ?_]
      · rw [fmtDigitPaddedBE_reverse]
        exact ofDigitsLE_pad (2 ^ p) d _ hb2 (hbd d (by simp [hd]))
      · rw [fmtDigitPaddedBE_reverse]
        intro x hx
        rcases List.mem_append.mp hx with hx | hx
        · exact toDigitsLE_bound _ _ hb2 x hx
        · rw [List.eq_of_mem_replicate hx]
          omega
      · rw [fmtDigitPaddedBE_rev_length _ _ _ (hlenD d (hbd d (by simp [hd])))]
    · simp only [List.map_cons, List.map_nil]
      congr 1
      rw [hfold _ (toDigitsLE_bound _ _ hb2) hmlen]
      exact toDigitsLE_ofDigits _ m hb2 hmlt
  rw [hmapped]
  unfold apIntFromIter
  congr 1
  simp

/-- Value computed by the packing step of `from_bitwise_digits`: the packed
digit sequence denotes exactly the value of the little-endian radix digit
string. -/
theorem chunks_value (p c : Nat) (hp : 0 < p) (hpc : p * c = 64) :
    ∀ (n : Nat) (l : List Nat), l.length ≤ n → (∀ d ∈ l, d < 2 ^ p) →
      ofDigitsLE digitBase ((chunksOf c l).map
        (fun chunk => chunk.reverse.foldl (fun acc c => ((acc * 2 ^ p) % digitBase) ||| c) 0)) =
        ofDigitsLE (2 ^ p) l := by
  intro n
  induction n with
  | zero =>
    intro l h _
    have : l = [] := List.length_eq_zero.mp (by omega)
    subst this
    rfl
  | succ n ih =>
    intro l hlen hbd
    by_cases hl : l = []
    · subst hl
      rfl
    · have hc0 : 0 < c := by
        rcases Nat.eq_zero_or_pos c with h | h
        · rw [h] at hpc
          simp at hpc
        · exact h
      have hlpos : 0 < l.length := List.length_pos.mpr hl
      rw [chunksOf_unfold c hc0 l hl, List.map_cons, ofDigitsLE_cons]
      rw [chunk_fold_value p c hp hpc (l.take c)
        (fun d hd => hbd d (List.take_subset c l hd))
        (by rw [List.length_take]; omega)]
      rw [ih (l.drop c) (by rw [List.length_drop]; omega)
        (fun d hd => hbd d (List.drop_subset c l hd))]
      conv_rhs => rw [← List.take_append_drop c l]
      rw [ofDigitsLE_append]
      by_cases hdrop : l.drop c = []
      · rw [hdrop]
        simp [ofDigitsLE]
      · have htl : (l.take c).length = c := by
          rw [List.length_take]
          have hcl : c ≤ l.length := by
            by_contra hcon
            push_neg at hcon
            exact hdrop (List.drop_eq_nil_of_le (le_of_lt hcon))
          omega
        rw [htl]
        have : ((2 : Nat) ^ p) ^ c = digitBase := by
          unfold digitBase
          rw [← pow_mul, hpc]
        rw [this]

/-- Full `from_str_radix` round trip for one power-of-two radix `2^p` with
`p ∣ 64`, from the byte level down to the digits, for a value whose width is
`64 · (number of digits)` and whose top digit is nonzero (or the one-digit
zero). -/
theorem parse_format_generic (p : Nat) (hp : 0 < p) (hdvd : p ∣ 64) (hble : 2 ^ p ≤ 36)
    (hexact : exactBitsPerDigit (2 ^ p) = some p)
    (a : ApInt) (ha : a.wf) (hw : a.width = 64 * a.digits.length)
    (hm : a.digits.getLastD 0 ≠ 0 ∨ a.digits = [0]) :
    fromStrRadix (2 ^ p) ((formatRadixPow2 (2 ^ p) (64 / p) a).map digitToLowerAscii) =
      .ok a := by
  have hb2 : 2 ≤ 2 ^ p := by
    calc (2 : Nat) = 2 ^ 1 := (pow_one 2).symm
    _ ≤ 2 ^ p := Nat.pow_le_pow_right (by norm_num) hp
  have hmod : 64 % p = 0 := by
    obtain ⟨k, hk⟩ := hdvd
    rw [hk]
    exact Nat.mul_mod_right p k
  have hc0 : 0 < 64 / p := Nat.div_pos (Nat.le_of_dvd (by norm_num) hdvd) hp
  have hbdv : ∀ d ∈ formatRadixPow2 (2 ^ p) (64 / p) a, d < 2 ^ p :=
    formatRadixPow2_bound _ _ hb2 a
  have hbdv36 : ∀ d ∈ formatRadixPow2 (2 ^ p) (64 / p) a, d < 36 :=
    fun d hd => lt_of_lt_of_le (hbdv d hd) hble
  have hroundtrip : fromBitwiseDigits
      (formatRadixPow2 (2 ^ p) (64 / p) a).reverse p = a ∧
      formatRadixPow2 (2 ^ p) (64 / p) a ≠ [] := by
    rcases hm with hm | hz
    · have hne : a.digits ≠ [] := by
        intro h
        rw [h] at hm
        simp at hm
      have hdec : a.digits = a.digits.dropLast ++ [a.digits.getLastD 0] :=
        (dropLast_append_getLastD a.digits hne).symm
      have hlen : a.digits.length = a.digits.dropLast.length + 1 := by
        rw [List.length_dropLast]
        have : 0 < a.digits.length := List.length_pos.mpr hne
        omega
      have h1 : a.width = 64 * (a.digits.dropLast.length + 1) := by rw [hw, hlen]
      have haeq : a = ⟨64 * (a.digits.dropLast.length + 1),
          a.digits.dropLast ++ [a.digits.getLastD 0]⟩ := by
        rcases a with ⟨w, ds⟩
        dsimp only at h1 hdec ⊢
        rw [ApInt.mk.injEq]
        exact ⟨h1, hdec⟩
      constructor
      · conv_lhs => rw [haeq]
        conv_rhs => rw [haeq]
        exact fromBitwise_format_roundtrip p hp hdvd a.digits.dropLast
          (a.digits.getLastD 0) hm (hdec ▸ ha.2.2.1)
      · rw [haeq, formatRadixPow2_structure _ _ _ _ _ hm]
        intro hcon
        rw [List.append_eq_nil] at hcon
        have := toDigitsLE_ne_nil (2 ^ p) (a.digits.getLastD 0) (by omega)
        apply this
        have h2 : (toDigitsLE (2 ^ p) (a.digits.getLastD 0)).reverse = [] := hcon.1
        simpa using h2
    · have ha64 : a.width = 64 := by
        rw [hw, hz]
        rfl
      have haeq : a = ⟨64, [0]⟩ := by
        rcases a with ⟨w, ds⟩
        dsimp only at ha64 hz ⊢
        rw [ApInt.mk.injEq]
        exact ⟨ha64, hz⟩
      subst haeq
      have hfmt : formatRadixPow2 (2 ^ p) (64 / p) ⟨64, [0]⟩ = [0] := by
        unfold formatRadixPow2
        rw [if_pos (by decide)]
      rw [hfmt]
      refine ⟨?_, by simp⟩
      simp only [fromBitwiseDigits, List.reverse_singleton]
      rw [chunksOf_short (64 / p) [0] (by simp) (by simp; omega)]
      rw [List.map_singleton]
      rw [chunk_fold_value p (64 / p) hp (Nat.mul_div_cancel' hdvd) [0]
        (by intro d hd; simp at hd; subst hd; omega) (by simp; omega)]
      show apIntFromIter [ofDigitsLE (2 ^ p) [0]] = _
      rw [show ofDigitsLE (2 ^ p) [0] = 0 from by simp [ofDigitsLE]]
      rfl
  obtain ⟨hcore, hvne⟩ := hroundtrip
  have hinputne : (formatRadixPow2 (2 ^ p) (64 / p) a).map digitToLowerAscii ≠ [] := by
    simpa using hvne
  have hne95 := format_bytes_ne_95 _ hbdv36
  have hh95 : ((formatRadixPow2 (2 ^ p) (64 / p) a).map digitToLowerAscii).headD 0 ≠ 95 :=
    hne95 _ (headD_mem _ hinputne)
  have hl95 : ((formatRadixPow2 (2 ^ p) (64 / p) a).map digitToLowerAscii).getLastD 0 ≠ 95 :=
    hne95 _ (getLastD_mem _ hinputne)
  have htrans := translateBytes_format (2 ^ p) (formatRadixPow2 (2 ^ p) (64 / p) a) 0
    (fun d hd => ⟨hbdv d hd, hbdv36 d hd⟩)
  unfold fromStrRadix
  rw [if_neg hinputne, if_neg hh95, if_neg hl95, htrans]
  show Except.ok (match exactBitsPerDigit (2 ^ p) with
    | some bits =>
      if 64 % bits = 0 then fromBitwiseDigits (formatRadixPow2 (2 ^ p) (64 / p) a).reverse bits
      else fromInexactBitwiseDigits (formatRadixPow2 (2 ^ p) (64 / p) a).reverse bits
    | none => fromRadixDigits (formatRadixPow2 (2 ^ p) (64 / p) a) (2 ^ p)) = Except.ok a
  rw [hexact]
  show Except.ok (if 64 % p = 0
    then fromBitwiseDigits (formatRadixPow2 (2 ^ p) (64 / p) a).reverse p
    else fromInexactBitwiseDigits (formatRadixPow2 (2 ^ p) (64 / p) a).reverse p) = Except.ok a
  rw [if_pos hmod, hcore]

/-! ## Claims -/

/-- C1: the spec says `Radix::new(r)` accepts exactly `2 ≤ r ≤ 36` and
rejects everything else with `InvalidRadix(r)`.  The source guard
`!(MIN <= radix && radix >= MAX)` uses `>=` instead of `<=`, so radix 10 (and
16) is rejected while 37 is accepted — contradicting the function's own doc
comment and the serialization tests, which unwrap `Radix::new(10)` etc.
This theorem evaluates the code at the failing inputs. -/
theorem radixNew_guard_is_flipped :
    radixNew 10 = .error (.invalidRadix 10) ∧
    radixNew 16 = .error (.invalidRadix 16) ∧
    radixNew 37 = .ok 37 ∧
    radixNew 36 = .ok 36 ∧
    radixNew 1 = .error (.invalidRadix 1) := by
  decide

/-- C2 (amended): a binary checked operation on operands of unequal widths
fails with `UnmatchingBitWidths` and leaves the receiver unchanged — except
that the division/remainder operations test the divisor first, so with a zero
divisor they report `DivisionByZero` even when the widths differ. -/
theorem mismatch_width_errors (a b : ApInt) (h : a.width ≠ b.width) :
    checkedAddAssign a b = .error a (.unmatchingBitwidths a.width b.width) ∧
    checkedSubAssign a b = .error a (.unmatchingBitwidths a.width b.width) ∧
    checkedMulAssign a b = .error a (.unmatchingBitwidths a.width b.width) ∧
    intoCheckedAdd a b = .error (.unmatchingBitwidths a.width b.width) ∧
    intoCheckedSub a b = .error (.unmatchingBitwidths a.width b.width) ∧
    intoCheckedMul a b = .error (.unmatchingBitwidths a.width b.width) ∧
    (b.isZero = false →
      checkedUdivAssign a b = .error a (.unmatchingBitwidths a.width b.width) ∧
      checkedSdivAssign a b = .error a (.unmatchingBitwidths a.width b.width) ∧
      checkedUremAssign a b = .error a (.unmatchingBitwidths a.width b.width) ∧
      checkedSremAssign a b = .error a (.unmatchingBitwidths a.width b.width) ∧
      intoCheckedUdiv a b = .error (.unmatchingBitwidths a.width b.width) ∧
      intoCheckedSdiv a b = .error (.unmatchingBitwidths a.width b.width) ∧
      intoCheckedUrem a b = .error (.unmatchingBitwidths a.width b.width) ∧
      intoCheckedSrem a b = .error (.unmatchingBitwidths a.width b.width)) ∧
    (b.isZero = true →
      checkedUdivAssign a b = .error a (.divisionByZero .UnsignedDiv a) ∧
      checkedSdivAssign a b = .error a (.divisionByZero .SignedDiv a) ∧
      checkedUremAssign a b = .error a (.divisionByZero .UnsignedRem a) ∧
      checkedSremAssign a b = .error a (.divisionByZero .SignedRem a)) := by
  refine ⟨?_, ?_, ?_, ?_, ?_, ?_, ?_, ?_⟩
  · simp [checkedAddAssign, h]
  · simp [checkedSubAssign, h]
  · simp [checkedMulAssign, h]
  · simp [intoCheckedAdd, toRes, checkedAddAssign, h]
  · simp [intoCheckedSub, toRes, checkedSubAssign, h]
  · simp [intoCheckedMul, toRes, checkedMulAssign, h]
  · intro hz
    refine ⟨?_, ?_, ?_, ?_, ?_, ?_, ?_, ?_⟩ <;>
      simp [checkedUdivAssign, checkedSdivAssign, checkedUremAssign, checkedSremAssign,
        intoCheckedUdiv, intoCheckedSdiv, intoCheckedUrem, intoCheckedSrem, toRes, h, hz]
  · intro hz
    refine ⟨?_, ?_, ?_, ?_⟩ <;>
      simp [checkedUdivAssign, checkedSdivAssign, checkedUremAssign, checkedSremAssign, h, hz]

theorem mismatch_width_errors_witness :
    checkedAddAssign ⟨8, [1]⟩ ⟨16, [2]⟩ = .error ⟨8, [1]⟩ (.unmatchingBitwidths 8 16) ∧
    checkedSubAssign ⟨8, [1]⟩ ⟨16, [2]⟩ = .error ⟨8, [1]⟩ (.unmatchingBitwidths 8 16) ∧
    checkedMulAssign ⟨8, [1]⟩ ⟨16, [2]⟩ = .error ⟨8, [1]⟩ (.unmatchingBitwidths 8 16) ∧
    intoCheckedAdd ⟨8, [1]⟩ ⟨16, [2]⟩ = .error (.unmatchingBitwidths 8 16) ∧
    intoCheckedSub ⟨8, [1]⟩ ⟨16, [2]⟩ = .error (.unmatchingBitwidths 8 16) ∧
    intoCheckedMul ⟨8, [1]⟩ ⟨16, [2]⟩ = .error (.unmatchingBitwidths 8 16) ∧
    ((⟨16, [2]⟩ : ApInt).isZero = false →
      checkedUdivAssign ⟨8, [1]⟩ ⟨16, [2]⟩ = .error ⟨8, [1]⟩ (.unmatchingBitwidths 8 16) ∧
      checkedSdivAssign ⟨8, [1]⟩ ⟨16, [2]⟩ = .error ⟨8, [1]⟩ (.unmatchingBitwidths 8 16) ∧
      checkedUremAssign ⟨8, [1]⟩ ⟨16, [2]⟩ = .error ⟨8, [1]⟩ (.unmatchingBitwidths 8 16) ∧
      checkedSremAssign ⟨8, [1]⟩ ⟨16, [2]⟩ = .error ⟨8, [1]⟩ (.unmatchingBitwidths 8 16) ∧
      intoCheckedUdiv ⟨8, [1]⟩ ⟨16, [2]⟩ = .error (.unmatchingBitwidths 8 16) ∧
      intoCheckedSdiv ⟨8, [1]⟩ ⟨16, [2]⟩ = .error (.unmatchingBitwidths 8 16) ∧
      intoCheckedUrem ⟨8, [1]⟩ ⟨16, [2]⟩ = .error (.unmatchingBitwidths 8 16) ∧
      intoCheckedSrem ⟨8, [1]⟩ ⟨16, [2]⟩ = .error (.unmatchingBitwidths 8 16)) ∧
    ((⟨16, [2]⟩ : ApInt).isZero = true →
      checkedUdivAssign ⟨8, [1]⟩ ⟨16, [2]⟩ = .error ⟨8, [1]⟩ (.divisionByZero .UnsignedDiv ⟨8, [1]⟩) ∧
      checkedSdivAssign ⟨8, [1]⟩ ⟨16, [2]⟩ = .error ⟨8, [1]⟩ (.divisionByZero .SignedDiv ⟨8, [1]⟩) ∧
      checkedUremAssign ⟨8, [1]⟩ ⟨16, [2]⟩ = .error ⟨8, [1]⟩ (.divisionByZero .UnsignedRem ⟨8, [1]⟩) ∧
      checkedSremAssign ⟨8, [1]⟩ ⟨16, [2]⟩ = .error ⟨8, [1]⟩ (.divisionByZero .SignedRem ⟨8, [1]⟩)) :=
  mismatch_width_errors ⟨8, [1]⟩ ⟨16, [2]⟩ (by decide)

/-- C2, counterexample to the claim as stated: with a zero divisor of
mismatched width, `checked_udiv_assign` reports `DivisionByZero`, not
`UnmatchingBitWidths` (the divisor test precedes the width test). -/
theorem mismatch_width_zero_divisor_counterexample :
    checkedUdivAssign ⟨8, [1]⟩ ⟨16, [0]⟩ =
      .error ⟨8, [1]⟩ (.divisionByZero .UnsignedDiv ⟨8, [1]⟩) ∧
    MutOut.error ⟨8, [1]⟩ (.divisionByZero .UnsignedDiv ⟨8, [1]⟩) ≠
      MutOut.error ⟨8, [1]⟩ (.unmatchingBitwidths 8 16) := by
  decide

/-- C3: the spec requires the unused-bits invariant after a successful left
shift, but `checked_shl_assign` (unlike the arithmetic operations) never
calls `clear_unused_bits`: shifting the 8-bit value `0x80` left by 1 leaves
the inline digit at `0x100`, whose bit 8 is above `excess_bits(8) = 8`.  The
`into` form forwards the same digits. -/
theorem shl_violates_unused_bits_invariant :
    checkedShlAssign ⟨8, [128]⟩ 1 = .ok ⟨8, [256]⟩ ∧
    intoCheckedShl ⟨8, [128]⟩ 1 = .ok ⟨8, [256]⟩ ∧
    (⟨8, [128]⟩ : ApInt).wf ∧
    excessBits 8 ≠ 0 ∧
    ¬ unusedBitsInvariant ⟨8, [256]⟩ := by
  decide

/-- C4: the spec describes `ashr` as replicating the sign bit at position
`width − 1`, but the inline branch of `checked_ashr_assign` reinterprets the
raw 64-bit digit as an `i64`, where a sub-word value is always nonnegative:
the 8-bit value `0x80` (sign bit set) shifted right by 1 yields `0x40`
instead of the sign-extended `0xC0 = 192`. -/
theorem ashr_drops_subword_sign_bit :
    checkedAshrAssign ⟨8, [128]⟩ 1 = .ok ⟨8, [64]⟩ ∧
    intoCheckedAshr ⟨8, [128]⟩ 1 = .ok ⟨8, [64]⟩ ∧
    (⟨8, [128]⟩ : ApInt).wf ∧
    ((Int.fdiv (sInt 8 128) (2 ^ 1)) % ((2 : Int) ^ 8)).toNat = 192 ∧
    (64 : Nat) ≠ 192 := by
  decide

/-- C10: for two inline values of the same width `w ≤ 64` satisfying the
storage invariant (only the low `w` bits set), `slt` returns `Ok(true)`
exactly when the two's-complement signed interpretation at width `w` of the
first is strictly below that of the second, even though the comparison is
done by shifting both raw digits left by `64 − w` and comparing as `i64`. -/
theorem slt_is_signed_lt (a other : SmallAPInt) (hw : other.len = a.len) (h0 : 0 < a.len)
    (h64 : a.len ≤ 64) (ha : a.digit < 2 ^ a.len) (hb : other.digit < 2 ^ a.len) :
    a.slt other = .ok (decide (sInt a.len a.digit < sInt a.len other.digit)) := by
  unfold SmallAPInt.slt
  rw [if_neg (by omega)]
  show Except.ok (decide (toInt64 ((a.digit * 2 ^ (64 - a.len)) % digitBase) <
    toInt64 ((other.digit * 2 ^ (64 - a.len)) % digitBase))) = _
  rw [toInt64_inflate a.len a.digit h0 h64 ha, toInt64_inflate a.len other.digit h0 h64 hb]
  congr 1
  apply decide_eq_decide.mpr
  exact mul_lt_mul_right (by positivity)

theorem slt_is_signed_lt_witness :
    SmallAPInt.slt ⟨8, 200⟩ ⟨8, 10⟩ = .ok true ∧ SmallAPInt.slt ⟨8, 10⟩ ⟨8, 200⟩ = .ok false := by
  have h1 := slt_is_signed_lt ⟨8, 200⟩ ⟨8, 10⟩ rfl (by decide) (by decide) (by decide) (by decide)
  have h2 := slt_is_signed_lt ⟨8, 10⟩ ⟨8, 200⟩ rfl (by decide) (by decide) (by decide) (by decide)
  exact ⟨h1.trans (by decide), h2.trans (by decide)⟩

/-- C7 (amended): for well-formed same-width operands of inline width
(`≤ 64`, the only widths the source implements — the external branch is
`unimplemented!()`) with a nonzero divisor, `checked_sdiv` yields the signed
quotient truncated toward zero and `checked_srem` the signed remainder
carrying the dividend's sign (`Int.tdiv` / `Int.tmod` are exactly
truncation-toward-zero semantics), both masked back to the operand width. -/
theorem sdiv_srem_signed (a b : ApInt) (ha : a.wf) (hb : b.wf) (hw : b.width = a.width)
    (h64 : a.width ≤ 64) (hz : b.isZero = false) :
    checkedSdivAssign a b =
      .ok ⟨a.width, [((Int.tdiv (sInt a.width a.toNat) (sInt a.width b.toNat)) %
        ((2 : Int) ^ a.width)).toNat]⟩ ∧
    checkedSremAssign a b =
      .ok ⟨a.width, [((Int.tmod (sInt a.width a.toNat) (sInt a.width b.toNat)) %
        ((2 : Int) ^ a.width)).toNat]⟩ ∧
    intoCheckedSdiv a b =
      .ok ⟨a.width, [((Int.tdiv (sInt a.width a.toNat) (sInt a.width b.toNat)) %
        ((2 : Int) ^ a.width)).toNat]⟩ ∧
    intoCheckedSrem a b =
      .ok ⟨a.width, [((Int.tmod (sInt a.width a.toNat) (sInt a.width b.toNat)) %
        ((2 : Int) ^ a.width)).toNat]⟩ := by
  have h0 : 0 < a.width := ha.1
  have hda : a.digits = [a.toNat] := inline_digits a ha h64
  have hdb : b.digits = [b.toNat] := inline_digits b hb (hw ▸ h64)
  have hva : a.toNat < 2 ^ a.width := ha.2.2.2
  have hvb : b.toNat < 2 ^ a.width := hw ▸ hb.2.2.2
  have hsa := toInt64_signExtendFrom a.width a.toNat h0 h64 hva
  have hsb := toInt64_signExtendFrom a.width b.toNat h0 h64 hvb
  have hdivmod : ∀ q : Int, (q % ((2 : Int) ^ 64)) % ((2 : Int) ^ a.width) =
      q % 2 ^ a.width := fun q => Int.emod_emod_of_dvd q (pow_dvd_pow 2 h64)
  have hsdiv : checkedSdivAssign a b =
      .ok ⟨a.width, [((Int.tdiv (sInt a.width a.toNat) (sInt a.width b.toNat)) %
        ((2 : Int) ^ a.width)).toNat]⟩ := by
    unfold checkedSdivAssign
    rw [hz, if_neg (by simp), if_neg (by omega), if_pos (by simp [isInline]; omega)]
    rw [hda, hdb]
    show MutOut.ok (clearUnusedBits ⟨a.width,
      [u64OfInt (i64WrappingDiv (toInt64 (signExtendFrom a.width a.toNat))
        (toInt64 (signExtendFrom a.width b.toNat)))]⟩) = _
    rw [hsa, hsb, clear_single_u64OfInt a.width _ h0 h64]
    have hq : (i64WrappingDiv (sInt a.width a.toNat) (sInt a.width b.toNat)) %
        ((2 : Int) ^ a.width) =
        (Int.tdiv (sInt a.width a.toNat) (sInt a.width b.toNat)) % ((2 : Int) ^ a.width) := by
      have hqL := hdivmod (i64WrappingDiv (sInt a.width a.toNat) (sInt a.width b.toNat))
      have hqR := hdivmod (Int.tdiv (sInt a.width a.toNat) (sInt a.width b.toNat))
      rw [← hqL, ← hqR, i64WrappingDiv_emod]
    rw [hq]
  have hsrem : checkedSremAssign a b =
      .ok ⟨a.width, [((Int.tmod (sInt a.width a.toNat) (sInt a.width b.toNat)) %
        ((2 : Int) ^ a.width)).toNat]⟩ := by
    unfold checkedSremAssign
    rw [hz, if_neg (by simp), if_neg (by omega), if_pos (by simp [isInline]; omega)]
    rw [hda, hdb]
    show MutOut.ok (clearUnusedBits ⟨a.width,
      [u64OfInt (i64WrappingRem (toInt64 (signExtendFrom a.width a.toNat))
        (toInt64 (signExtendFrom a.width b.toNat)))]⟩) = _
    rw [hsa, hsb, clear_single_u64OfInt a.width _ h0 h64]
    have hq : (i64WrappingRem (sInt a.width a.toNat) (sInt a.width b.toNat)) %
        ((2 : Int) ^ a.width) =
        (Int.tmod (sInt a.width a.toNat) (sInt a.width b.toNat)) % ((2 : Int) ^ a.width) := by
      have hqL := hdivmod (i64WrappingRem (sInt a.width a.toNat) (sInt a.width b.toNat))
      have hqR := hdivmod (Int.tmod (sInt a.width a.toNat) (sInt a.width b.toNat))
      rw [← hqL, ← hqR, i64WrappingRem_emod]
    rw [hq]
  refine ⟨hsdiv, hsrem, ?_, ?_⟩
  · rw [intoCheckedSdiv, hsdiv]
    rfl
  · rw [intoCheckedSrem, hsrem]
    rfl

theorem sdiv_srem_signed_witness :
    checkedSremAssign (fromI32 (-23)) (fromI32 7) = .ok (fromI32 (-2)) ∧
    checkedSdivAssign (fromI32 72) (fromI32 (-12)) = .ok (fromI32 (-6)) := by
  have h1 := sdiv_srem_signed (fromI32 (-23)) (fromI32 7)
    (by decide) (by decide) rfl (by decide) (by decide)
  have h2 := sdiv_srem_signed (fromI32 72) (fromI32 (-12))
    (by decide) (by decide) rfl (by decide) (by decide)
  exact ⟨h1.2.1.trans (by decide), h2.1.trans (by decide)⟩

/-- C7, counterexample to the claim as stated: at an external width (65) the
division/remainder paths are `unimplemented!()` and panic instead of
computing a quotient — the claim fails for "every pair of same-width
values". -/
theorem sdiv_external_panics :
    checkedSdivAssign ⟨65, [1, 0]⟩ ⟨65, [2, 0]⟩ = .panic ∧
    checkedSremAssign ⟨65, [1, 0]⟩ ⟨65, [2, 0]⟩ = .panic ∧
    (⟨65, [1, 0]⟩ : ApInt).wf ∧ (⟨65, [2, 0]⟩ : ApInt).wf ∧
    MutOut.panic ≠ .ok ⟨65, [0, 0]⟩ := by
  decide

/-- C5: on well-formed same-width operands, `checked_add_assign` (and
`into_checked_add`) always succeeds — it neither fails nor panics on
wraparound — and produces `(a + b) mod 2^N` at width `N`: the carry out of
the top digit is discarded. -/
theorem checked_add_is_modular (a b : ApInt) (ha : a.wf) (hb : b.wf) (hw : b.width = a.width) :
    ∃ c : ApInt, checkedAddAssign a b = .ok c ∧ intoCheckedAdd a b = .ok c ∧
      c.width = a.width ∧ c.toNat = (a.toNat + b.toNat) % 2 ^ a.width ∧ c.wf := by
  obtain ⟨c, h1, h2, h3, h4⟩ := add_ok a b ha hb hw
  refine ⟨c, h1, ?_, h2, h3, h4⟩
  rw [intoCheckedAdd, h1]
  rfl

theorem checked_add_is_modular_witness :
    ∃ c : ApInt, checkedAddAssign ⟨8, [200]⟩ ⟨8, [100]⟩ = .ok c ∧
      intoCheckedAdd ⟨8, [200]⟩ ⟨8, [100]⟩ = .ok c ∧
      c.width = (⟨8, [200]⟩ : ApInt).width ∧
      c.toNat = ((⟨8, [200]⟩ : ApInt).toNat + (⟨8, [100]⟩ : ApInt).toNat) % 2 ^ 8 ∧ c.wf :=
  checked_add_is_modular ⟨8, [200]⟩ ⟨8, [100]⟩ (by decide) (by decide) rfl

/-- C6: `negate` is two's-complement negation (`bitnot` then `+1` at width
`w`), `negate ∘ negate` is the identity on well-formed values (in particular
away from `signed_min`), and `negate` fixes `signed_min_value(w)`. -/
theorem negate_involution (a : ApInt) (ha : a.wf) :
    a.negate.negate = a ∧
    (signedMinValue a.width).negate = signedMinValue a.width ∧
    a.negate.toNat = (a.bitnot.toNat + 1) % 2 ^ a.width := by
  have h0 : 0 < a.width := ha.1
  have hva : a.toNat < 2 ^ a.width := ha.2.2.2
  have h2w : 1 ≤ 2 ^ a.width := Nat.one_le_pow _ _ (by norm_num)
  obtain ⟨hnwf, hnw, hnv⟩ := negate_spec a ha
  refine ⟨?_, ?_, ?_⟩
  · obtain ⟨hnnwf, hnnw, hnnv⟩ := negate_spec a.negate hnwf
    apply wf_eq_of_toNat _ _ hnnwf ha (by rw [hnnw, hnw])
    rw [hnnv, hnw, hnv]
    rcases Nat.eq_zero_or_pos a.toNat with hz | hp
    · rw [hz]
      simp
    · have hin : (2 ^ a.width - a.toNat) % 2 ^ a.width = 2 ^ a.width - a.toNat :=
        Nat.mod_eq_of_lt (by omega)
      rw [hin]
      have : 2 ^ a.width - (2 ^ a.width - a.toNat) = a.toNat := by omega
      rw [this]
      exact Nat.mod_eq_of_lt hva
  · obtain ⟨hmwf, hmw, hmv⟩ := signedMinValue_spec a.width h0
    obtain ⟨hmnwf, hmnw, hmnv⟩ := negate_spec (signedMinValue a.width) hmwf
    apply wf_eq_of_toNat _ _ hmnwf hmwf (by rw [hmnw])
    rw [hmnv, hmw, hmv]
    have hsplit : 2 ^ a.width = 2 * 2 ^ (a.width - 1) := by
      rw [← pow_succ']
      congr 1
      omega
    rw [Nat.mod_eq_of_lt (by omega)]
    omega
  · obtain ⟨hbwf, hbw, hbv⟩ := bitnot_spec a ha
    rw [hnv, hbv]
    congr 1
    omega

theorem negate_involution_witness :
    (ApInt.negate (ApInt.negate ⟨8, [37]⟩)) = ⟨8, [37]⟩ ∧
    (signedMinValue 8).negate = signedMinValue 8 ∧
    (ApInt.negate ⟨8, [37]⟩).toNat = ((⟨8, [37]⟩ : ApInt).bitnot.toNat + 1) % 2 ^ 8 :=
  negate_involution ⟨8, [37]⟩ (by decide)

/-- C8 (amended): the parse/format round trip
`from_str_radix(r, format(v, r)) = v` (structural equality) holds for the
implemented power-of-two radices 2 and 16 exactly on values whose width is
`64 · (digit count)` and whose most significant digit is nonzero (or the
one-digit zero value): parsing always returns a width of 64 bits per parsed
digit block, so all other widths change structurally, and octal formatting
of nonzero values is `unimplemented!()`. -/
theorem parse_format_roundtrip (a : ApInt) (ha : a.wf) (hw : a.width = 64 * a.digits.length)
    (hm : a.digits.getLastD 0 ≠ 0 ∨ a.digits = [0]) :
    fromStrRadix 2 (formatBinary a) = .ok a ∧
    fromStrRadix 16 (formatLowerHex a) = .ok a := by
  constructor
  · have h := parse_format_generic 1 (by norm_num) (by norm_num) (by norm_num)
      (by decide) a ha hw hm
    norm_num at h
    exact h
  · have h := parse_format_generic 4 (by norm_num) (by norm_num) (by norm_num)
      (by decide) a ha hw hm
    norm_num at h
    exact h

theorem parse_format_roundtrip_witness :
    fromStrRadix 2 (formatBinary ⟨128, [5, 7]⟩) = .ok ⟨128, [5, 7]⟩ ∧
    fromStrRadix 16 (formatLowerHex ⟨128, [5, 7]⟩) = .ok ⟨128, [5, 7]⟩ :=
  parse_format_roundtrip ⟨128, [5, 7]⟩ (by decide) (by decide) (by decide)

/-- C8, counterexample to the claim as stated: formatting an 8-bit value and
parsing it back yields a structurally different value of width 64 — the
claimed round trip fails for widths that are not multiples of the digit
size. -/
theorem parse_format_counterexample :
    fromStrRadix 2 (formatBinary ⟨8, [147]⟩) = .ok ⟨64, [147]⟩ ∧
    (⟨64, [147]⟩ : ApInt) ≠ ⟨8, [147]⟩ ∧
    (⟨8, [147]⟩ : ApInt).wf ∧
    formatOctal ⟨8, [147]⟩ = none := by
  decide

/-- C9 (amended): without a caller-supplied target width (the embedded
`from_str_radix` has none), parsing a radix-2 string of `L` digits
(underscores dropped) yields the parsed value at bit width
`64 · ⌈L / 64⌉` — the width is dictated by the input length in digit blocks
of 64, not the smallest width fitting the value. -/
theorem fromStrRadix_width_policy (bs v : List Nat) (hne : bs ≠ [])
    (hh : bs.headD 0 ≠ 95) (hl : bs.getLastD 0 ≠ 95)
    (ht : translateBytes 2 0 bs = .ok v) :
    fromStrRadix 2 bs = .ok (fromBitwiseDigits v.reverse 1) ∧
    (fromBitwiseDigits v.reverse 1).width = 64 * ((v.length + 63) / 64) ∧
    (fromBitwiseDigits v.reverse 1).toNat = ofDigitsLE 2 v.reverse := by
  have hbd : ∀ d ∈ v, d < 2 := translateBytes_bound 2 bs 0 v ht
  have hbdr : ∀ d ∈ v.reverse, d < 2 ^ 1 := by
    intro d hd
    rw [pow_one]
    exact hbd d (List.mem_reverse.mp hd)
  refine ⟨?_, ?_, ?_⟩
  · unfold fromStrRadix
    rw [if_neg hne, if_neg hh, if_neg hl, ht]
    show Except.ok (match exactBitsPerDigit 2 with
      | some bits => if 64 % bits = 0 then fromBitwiseDigits v.reverse bits
        else fromInexactBitwiseDigits v.reverse bits
      | none => fromRadixDigits v 2) = _
    rw [show exactBitsPerDigit 2 = some 1 from by decide]
    rfl
  · show (apIntFromIter _).width = _
    unfold apIntFromIter
    show 64 * (List.map _ (chunksOf (64 / 1) v.reverse)).length = _
    rw [List.length_map]
    norm_num
    rw [chunksOf_length_64 v.reverse.length v.reverse (le_refl _), List.length_reverse]
  · show ofDigitsLE digitBase ((chunksOf (64 / 1) v.reverse).map
        (fun chunk => chunk.reverse.foldl (fun acc c => ((acc * 2 ^ 1) % digitBase) ||| c) 0)) =
      ofDigitsLE 2 v.reverse
    have h := chunks_value 1 (64 / 1) (by norm_num) (by norm_num) v.reverse.length v.reverse
      (le_refl _) hbdr
    exact h.trans (by norm_num)

theorem fromStrRadix_width_policy_witness :
    fromStrRadix 2 [49, 48, 48, 49, 95, 48, 48, 49, 49] = .ok ⟨64, [147]⟩ ∧
    (64 : Nat) = 64 * ((8 + 63) / 64) := by
  have h := fromStrRadix_width_policy [49, 48, 48, 49, 95, 48, 48, 49, 49]
    [1, 0, 0, 1, 0, 0, 1, 1] (by decide) (by decide) (by decide) (by decide)
  exact ⟨h.1.trans (by decide), by decide⟩

/-- C9, counterexample to the claim as stated: parsing `"1"` at radix 2
yields a value of width 64, although the parsed value `1` already fits in
the supported width 1 — the width is not the smallest supported width that
fits. -/
theorem fromStrRadix_width_counterexample :
    fromStrRadix 2 [49] = .ok ⟨64, [1]⟩ ∧ (1 : Nat) < 2 ^ 1 ∧ (64 : Nat) ≠ 1 := by
  decide

end Apint
